import Mathlib

/-!
Shallow embedding of the core workflow engine of the `lacky` CLI
(a local GitHub-Actions workflow runner) and proofs about it.

The embedding follows the TypeScript sources function by function:
  - `src/lib/resolve-variable.ts` : expression extraction and resolution
  - `src/lib/job.ts`              : job/step condition evaluation
  - `src/lib/workflow.ts`         : the scheduler loop, matrix expansion,
                                    step execution control flow
User interaction (inquirer prompts), command execution, the filesystem
and the host JavaScript runtime facilities (`JSON.parse`, `path.resolve`,
`eval` restricted to the workflow expression grammar) are collaborators;
they are modelled as explicit oracle parameters, so the engine itself is a
pure, total function of the workflow, the oracles and the mutable context
that the TypeScript threads through every call.
-/

namespace Lacky

/-- A single-quote character as a string, used to build the exact prompt
message texts of the source (for example `Enter value for 'x'`). -/
def sq : String := String.mk [Char.ofNat 39]

/-! ## Association maps

JavaScript `Map` objects and plain objects preserve insertion order;
`Map.set` overwrites in place. We mirror them with association lists. -/

/-- Insertion-ordered string-keyed map mirroring a JS `Map` / plain object. -/
abbrev AMap (α : Type) := List (String × α)

/-- `map.has(k)` of a JS Map. -/
def aHas {α : Type} (m : AMap α) (k : String) : Bool :=
  m.any (fun p => p.1 == k)

/-- `map.get(k)` of a JS Map (absent key gives `none`). -/
def aGet {α : Type} (m : AMap α) (k : String) : Option α :=
  (m.find? (fun p => p.1 == k)).map (·.2)

/-- Overwrite the value stored at an existing key, keeping its position. -/
def aOverwrite {α : Type} (m : AMap α) (k : String) (v : α) : AMap α :=
  m.map (fun p => if p.1 == k then (k, v) else p)

/-- `map.set(k, v)` of a JS Map: overwrite in place if the key exists,
otherwise append, preserving insertion order. -/
def aSet {α : Type} (m : AMap α) (k : String) (v : α) : AMap α :=
  if m.any (fun p => p.1 == k) then aOverwrite m k v else m ++ [(k, v)]

theorem find?_aOverwrite_self {α : Type} (m : AMap α) (k : String) (v : α)
    (h : m.any (fun p => p.1 == k) = true) :
    (aOverwrite m k v).find? (fun p => p.1 == k) = some (k, v) := by
  induction m with
  | nil => simp [aHas] at h
  | cons p rest ih =>
    by_cases hp : p.1 == k
    · simp [aOverwrite, List.find?, hp]
    · simp only [List.any_cons, Bool.or_eq_true] at h
      rcases h with h | h
      · exact absurd h hp
      · simpa [aOverwrite, List.find?, hp] using ih h

theorem find?_aOverwrite_ne {α : Type} (m : AMap α) (k k' : String) (v : α)
    (h : k ≠ k') :
    (aOverwrite m k v).find? (fun p => p.1 == k') =
      m.find? (fun p => p.1 == k') := by
  induction m with
  | nil => simp [aOverwrite]
  | cons p rest ih =>
    by_cases hp : p.1 == k
    · have hp' : p.1 = k := by simpa using hp
      have h1 : ¬ ((k, v).1 == k') := by simpa using h
      have h2 : ¬ (p.1 == k') := by simp [hp', h]
      simpa [aOverwrite, List.find?, hp, h1, h2] using ih
    · by_cases hq : p.1 == k'
      · simp [aOverwrite, List.find?, hp, hq]
      · simpa [aOverwrite, List.find?, hp, hq] using ih

theorem find?_append_right {α : Type} (m l : AMap α) (k : String)
    (h : m.any (fun p => p.1 == k) = false) :
    (m ++ l).find? (fun p => p.1 == k) = l.find? (fun p => p.1 == k) := by
  induction m with
  | nil => simp
  | cons p rest ih =>
    simp only [List.any_cons, Bool.or_eq_false_iff] at h
    simp only [List.cons_append, List.find?, h.1]
    exact ih h.2

theorem aGet_aSet_self {α : Type} (m : AMap α) (k : String) (v : α) :
    aGet (aSet m k v) k = some v := by
  unfold aGet aSet
  by_cases h : m.any (fun p => p.1 == k)
  · simp [h, find?_aOverwrite_self m k v h]
  · have h' : m.any (fun p => p.1 == k) = false := Bool.eq_false_iff.mpr h
    simp [h', find?_append_right m [(k, v)] k h', List.find?]

theorem aGet_aSet_ne {α : Type} (m : AMap α) (k k' : String) (v : α)
    (h : k ≠ k') : aGet (aSet m k v) k' = aGet m k' := by
  unfold aGet aSet
  by_cases hm : m.any (fun p => p.1 == k)
  · simp [hm, find?_aOverwrite_ne m k k' v h]
  · have hm' : m.any (fun p => p.1 == k) = false := Bool.eq_false_iff.mpr hm
    simp only [hm', Bool.false_eq_true, if_false]
    induction m with
    | nil =>
      have : ¬ ((k, v).1 == k') := by simpa using h
      simp [List.find?, this]
    | cons p rest ih =>
      simp only [List.any_cons, Bool.or_eq_false_iff] at hm'
      by_cases hq : p.1 == k'
      · simp [List.find?, hq]
      · simp only [List.cons_append, List.find?, hq, Bool.false_eq_true,
          if_neg, if_false]
        exact ih (by simp [hm'.2]) (by simp [hm'.2])

/-! ## String helpers mirroring the JavaScript string methods used -/

/-- Split a character list at the first occurrence of a pattern, returning
the part before the occurrence and the part after it. `none` when the
pattern does not occur. An empty pattern occurs at position 0, as in JS. -/
def firstSplit (pat : List Char) : List Char → Option (List Char × List Char)
  | [] => if pat.isEmpty then some ([], []) else none
  | c :: cs =>
    if pat.isPrefixOf (c :: cs) then some ([], (c :: cs).drop pat.length)
    else
      match firstSplit pat cs with
      | some (b, a) => some (c :: b, a)
      | none => none

/-- `s.includes(pat)` of a JS string. -/
def strIncludes (s pat : String) : Bool :=
  (firstSplit pat.data s.data).isSome

/-- `s.replace(pat, rep)` of a JS string with a string pattern: replaces
only the first occurrence; returns `s` unchanged when absent. -/
def jsReplaceFirst (s pat rep : String) : String :=
  match firstSplit pat.data s.data with
  | some (b, a) => String.mk (b ++ rep.data ++ a)
  | none => s

/-- JS `\s` for the characters occurring in this code base (the source
regexes use `\s`; ASCII whitespace is what actually reaches them). -/
def isJsSpace (c : Char) : Bool :=
  c = ' ' || c = '\t' || c = '\n' || c = '\r'

/-- `s.startsWith(pat)` of a JS string. -/
def strStartsWith (s pat : String) : Bool :=
  pat.data.isPrefixOf s.data

/-- `s.endsWith(pat)` of a JS string. -/
def strEndsWith (s pat : String) : Bool :=
  pat.data.reverse.isPrefixOf s.data.reverse

/-- `s.trim()` of a JS string (whitespace stripped from both ends). -/
def strTrim (s : String) : String :=
  String.mk (((s.data.dropWhile isJsSpace).reverse.dropWhile
    isJsSpace).reverse)

/-- `s.toLowerCase()` of a JS string (ASCII range). -/
def strToLower (s : String) : String :=
  String.mk (s.data.map (fun c =>
    if 'A' ≤ c ∧ c ≤ 'Z' then Char.ofNat (c.toNat + 32) else c))

/-- `s.split(sep)` of a JS string with a single-character separator. -/
def splitOnCharAux (sep : Char) : List Char → List Char → List String
  | acc, [] => [String.mk acc]
  | acc, c :: cs =>
    if c = sep then String.mk acc :: splitOnCharAux sep [] cs
    else splitOnCharAux sep (acc ++ [c]) cs

def splitOnChar (sep : Char) (s : String) : List String :=
  splitOnCharAux sep [] s.data

/-- The value of a digit run (JS `Number` on an all-digit string). -/
def digitsToNat (l : List Char) : Nat :=
  l.foldl (fun acc c => acc * 10 + (c.toNat - '0'.toNat)) 0

/-- Lexicographic `<` on strings by code point (the JS `<` on strings). -/
def charListLt : List Char → List Char → Bool
  | [], [] => false
  | [], _ :: _ => true
  | _ :: _, [] => false
  | a :: as, b :: bs =>
    if a.toNat < b.toNat then true
    else if b.toNat < a.toNat then false
    else charListLt as bs

def strLt (a b : String) : Bool :=
  charListLt a.data b.data

/-- JS `\w` (word character). -/
def isWordChar (c : Char) : Bool :=
  ('a' ≤ c && c ≤ 'z') || ('A' ≤ c && c ≤ 'Z') || ('0' ≤ c && c ≤ '9') || c = '_'

/-! ## JSON-ish runtime values

Matrix axis entries and `env` entries come out of the YAML parser as
arbitrary JSON-like values; the TypeScript manipulates them as `any` and
stringifies with JS `String(...)` semantics. -/

inductive JsonVal where
  | str (s : String)
  | num (n : Int)
  | boolean (b : Bool)
  | nul
  | arr (elems : List JsonVal)
  | obj (fields : List (String × JsonVal))

mutual

/-- JS `String(v)` for the values above. Arrays stringify as their
elements joined with commas (`null` elements join as empty, as in JS);
plain objects stringify as `[object Object]`. -/
def jsToString : JsonVal → String
  | .str s => s
  | .num n => toString n
  | .boolean b => if b then "true" else "false"
  | .nul => "null"
  | .arr l => String.intercalate "," (jsToStringArrayElems l)
  | .obj _ => "[object Object]"

/-- Stringification of array elements for JS `Array.prototype.join`. -/
def jsToStringArrayElems : List JsonVal → List String
  | [] => []
  | .nul :: xs => "" :: jsToStringArrayElems xs
  | x :: xs => jsToString x :: jsToStringArrayElems xs

end

/-! ## Prompts and the user oracle

`askUserForInput`, `askUserForSecret` and `askUserToSelectFromMenu`
(`src/lib/input.ts`) are interactive collaborators. Each invocation is
recorded in a log, and the user's reply is produced by an oracle that may
depend on the invocation index and on the prompt shown, which covers every
possible interactive session. -/

inductive Prompt where
  | textInput (message : String) (placeholder : Option String)
  | secretInput (message : String)
  | menu (message : String) (options : List String)
deriving Repr, DecidableEq

/-- The user's replies: one answer per prompt invocation. -/
abbrev UserOracle := Nat → Prompt → String

/-- The shared mutable `WorkflowContext` of `src/lib/context.ts`. -/
structure WorkflowContext where
  resolvedVariables : AMap String
  stepOutputs : AMap (AMap (AMap String))
  jobOutputs : AMap (AMap String)
  miseVersion : Option String
deriving Repr, DecidableEq

/-- `createWorkflowContext` of `src/lib/context.ts`. -/
def createWorkflowContext (miseVersion : Option String) : WorkflowContext :=
  { resolvedVariables := [], stepOutputs := [], jobOutputs := [],
    miseVersion := miseVersion }

/-- The context together with the log of prompt invocations made so far
(the log is ghost instrumentation used to state memoization properties). -/
structure RState where
  ctx : WorkflowContext
  promptLog : List Prompt
deriving Repr, DecidableEq

/-- Invoke a prompting collaborator: record the prompt, obtain the reply. -/
def askUser (user : UserOracle) (p : Prompt) (s : RState) : String × RState :=
  (user s.promptLog.length p, { s with promptLog := s.promptLog ++ [p] })

/-- Store a value in `context.resolvedVariables`. -/
def setResolved (s : RState) (k v : String) : RState :=
  { s with ctx := { s.ctx with
      resolvedVariables := aSet s.ctx.resolvedVariables k v } }

/-! ## Workflow data model (`src/types/workflow.ts`, the fields the engine
reads; trigger metadata and similar inert fields are omitted) -/

/-- `job.needs`: a single job name or a list of names. -/
inductive Needs where
  | one (name : String)
  | many (names : List String)
deriving Repr, DecidableEq

structure Step where
  id : Option String := none
  name : Option String := none
  condIf : Option String := none
  run : Option String := none
  uses : Option String := none
  withParams : AMap String := []
  workingDirectory : Option String := none
deriving Repr, DecidableEq

structure Job where
  runsOn : Option String := none
  needs : Option Needs := none
  condIf : Option String := none
  env : AMap JsonVal := []
  defaultsRunWorkingDirectory : Option String := none
  strategyMatrix : Option (AMap JsonVal) := none
  steps : List Step := []
  outputs : Option (AMap String) := none

structure Workflow where
  name : Option String := none
  env : AMap String := []
  defaultsRunWorkingDirectory : Option String := none
  jobs : AMap Job := []

/-! ## Expression extraction (`extractGitHubExpressions`)

The source regex is `/\$\{\{\s*([^}]+)\s*\}\}/g`: an opener, at least one
character that is not a closing brace, then the two-character closer; the
capture is trimmed. Scanning resumes after each match, or one character
past a failed attempt, as the JS regex engine does. -/

def extractExprsAux : Nat → List Char → List String
  | 0, _ => []
  | fuel + 1, l =>
    match l with
    | [] => []
    | '$' :: '{' :: '{' :: rest =>
      let mid := rest.takeWhile (fun ch => ch ≠ '}')
      match rest.drop mid.length with
      | '}' :: '}' :: rest2 =>
        if mid.isEmpty then extractExprsAux fuel ('{' :: '{' :: rest)
        else strTrim (String.mk mid) :: extractExprsAux fuel rest2
      | _ => extractExprsAux fuel ('{' :: '{' :: rest)
    | _ :: cs => extractExprsAux fuel cs

/-- `extractGitHubExpressions` of `src/lib/resolve-variable.ts`. Every
recursive step of the scan advances at least one character, so the
character count bounds the recursion depth and the fuel never runs out. -/
def extractGitHubExpressions (text : String) : List String :=
  extractExprsAux (text.data.length + 1) text.data

/-! ## The fromJSON capture (`/fromJSON\(([^)]+)\)/`) -/

def fromJSONCapture : List Char → Option (List Char)
  | [] => none
  | c :: cs =>
    if "fromJSON(".data.isPrefixOf (c :: cs) then
      let body := cs.drop 8
      let cap := body.takeWhile (fun ch => ch ≠ ')')
      if cap.isEmpty then fromJSONCapture cs
      else if (body.drop cap.length).head? = some ')' then some cap
      else fromJSONCapture cs
    else fromJSONCapture cs

theorem takeWhile_len_le {α : Type} (p : α → Bool) (l : List α) :
    (l.takeWhile p).length ≤ l.length := by
  induction l with
  | nil => simp
  | cons x xs ih =>
    by_cases h : p x <;> simp [List.takeWhile_cons, h] <;> omega

theorem dropWhile_len_le {α : Type} (p : α → Bool) (l : List α) :
    (l.dropWhile p).length ≤ l.length := by
  induction l with
  | nil => simp
  | cons x xs ih =>
    by_cases h : p x <;> simp [List.dropWhile_cons, h] <;> omega

theorem fromJSONCapture_length_lt :
    ∀ (l cap : List Char), fromJSONCapture l = some cap →
      cap.length < l.length := by
  intro l
  induction l with
  | nil => intro cap h; simp [fromJSONCapture] at h
  | cons c cs ih =>
    intro cap h
    unfold fromJSONCapture at h
    dsimp only at h
    split at h
    · split at h
      · exact Nat.lt_succ_of_lt (ih cap h)
      · split at h
        · obtain rfl : (cs.drop 8).takeWhile (fun ch => ch ≠ ')') = cap :=
            Option.some.injEq _ _ ▸ h
          have h1 : ((cs.drop 8).takeWhile (fun ch => ch ≠ ')')).length ≤
              (cs.drop 8).length := takeWhile_len_le _ _
          have h2 : (cs.drop 8).length ≤ cs.length := by
            simp [List.length_drop]
          simp only [List.length_cons]
          omega
        · exact Nat.lt_succ_of_lt (ih cap h)
    · exact Nat.lt_succ_of_lt (ih cap h)

/-! ## The needs-output capture (`/needs\.([^.]+)\.outputs\.(.+)/`, first
match anywhere in the string; `.` does not cross line terminators) -/

def needsOutputsCapture : List Char → Option (String × String)
  | [] => none
  | c :: cs =>
    if "needs.".data.isPrefixOf (c :: cs) then
      let afterNeeds := cs.drop 5
      let jobName := afterNeeds.takeWhile (fun ch => ch ≠ '.')
      let afterJob := afterNeeds.drop jobName.length
      if jobName.isEmpty then needsOutputsCapture cs
      else if ".outputs.".data.isPrefixOf afterJob then
        let rest := afterJob.drop 9
        let outName := rest.takeWhile (fun ch => ch ≠ '\n' && ch ≠ '\r')
        if outName.isEmpty then needsOutputsCapture cs
        else some (String.mk jobName, String.mk outName)
      else needsOutputsCapture cs
    else needsOutputsCapture cs

/-! ## The anchored step-output capture
(`/^steps\.([^.]+)\.outputs\.(.+)$/` of `resolveStepOutput`) -/

def stepsOutputsMatch (s : String) : Option (String × String) :=
  let l := s.data
  if "steps.".data.isPrefixOf l then
    let afterSteps := l.drop 6
    let stepId := afterSteps.takeWhile (fun ch => ch ≠ '.')
    let afterId := afterSteps.drop stepId.length
    if stepId.isEmpty then none
    else if ".outputs.".data.isPrefixOf afterId then
      let outName := afterId.drop 9
      if outName.isEmpty then none
      else if outName.any (fun ch => ch = '\n' || ch = '\r') then none
      else some (String.mk stepId, String.mk outName)
    else none
  else none

/-! ## Variable resolution (`src/lib/resolve-variable.ts`) -/

/-- `GITHUB_CONTEXT_OPTIONS`: well-known variables offered as menus. -/
def githubContextOptions : AMap (List String) :=
  [("github.ref_type", ["branch", "tag"]),
   ("github.event_name",
    ["push", "pull_request", "workflow_dispatch", "schedule", "release",
     "create", "delete"])]

/-- The tail of `resolveGitHubExpression` after the fromJSON block: the
`needs.<job>.outputs.<name>` branch and the free-text fallback. The found
job output is returned without being cached; both prompting paths cache. -/
def resolveNeedsOrFallback (user : UserOracle) (expression : String)
    (s : RState) : String × RState :=
  let fallback : String × RState :=
    let r := askUser user
      (.textInput ("Enter value for " ++ sq ++ expression ++ sq)
        (some "value")) s
    (r.1, setResolved r.2 expression r.1)
  let needsPrompt : String × RState :=
    let r := askUser user
      (.textInput ("Enter value for job output " ++ sq ++ expression ++ sq)
        (some "output-value")) s
    (r.1, setResolved r.2 expression r.1)
  if strStartsWith expression "needs." || strIncludes expression "needs." then
    match needsOutputsCapture expression.data with
    | some (jobName, outputName) =>
      match aGet s.ctx.jobOutputs jobName with
      | some jm =>
        match aGet jm outputName with
        | some value => (value, s)
        | none => needsPrompt
      | none => needsPrompt
    | none => fallback
  else fallback

/-- `resolveGitHubExpression`. The parameter `jp` is the host JSON
round-trip `s ↦ JSON.stringify(JSON.parse(s))`, `none` when parsing
throws; everything proved about this function holds for every `jp`.
The fuel bounds the `fromJSON` recursion, whose captured inner expression
is strictly shorter than the expression it came from, so the
character-count fuel supplied by the wrapper never runs out. -/
def resolveGitHubExpressionF (jp : String → Option String)
    (user : UserOracle) (workflow : Workflow) :
    Nat → String → RState → String × RState
  | 0, _, s => ("", s)
  | fuel + 1, expression, s =>
  match aGet s.ctx.resolvedVariables expression with
  | some v => (v, s)
  | none =>
    match aGet githubContextOptions expression with
    | some options =>
      let r := askUser user
        (.menu ("Select value for " ++ sq ++ expression ++ sq ++ ":")
          options) s
      (r.1, setResolved r.2 expression r.1)
    | none =>
      if strStartsWith expression "github.event.inputs." then
        let inputName := jsReplaceFirst expression "github.event.inputs." ""
        let r := askUser user
          (.textInput ("Enter value for input " ++ sq ++ inputName ++ sq)
            (some "my-value")) s
        (r.1, setResolved r.2 expression r.1)
      else if strStartsWith expression "secrets." then
        let secretName := jsReplaceFirst expression "secrets." ""
        let r := askUser user
          (.secretInput ("Enter value for secret " ++ sq ++ secretName ++ sq))
          s
        (r.1, setResolved r.2 expression r.1)
      else if strStartsWith expression "env." then
        let envVarName := jsReplaceFirst expression "env." ""
        match aGet workflow.env envVarName with
        | some v =>
          if v = "" then
            -- the source tests the looked-up value for JS truthiness, so an
            -- empty string falls through to the prompt
            let r := askUser user
              (.textInput ("Enter value for environment variable " ++ sq ++
                envVarName ++ sq) (some "value")) s
            (r.1, setResolved r.2 expression r.1)
          else (v, setResolved s expression v)
        | none =>
          let r := askUser user
            (.textInput ("Enter value for environment variable " ++ sq ++
              envVarName ++ sq) (some "value")) s
          (r.1, setResolved r.2 expression r.1)
      else if strStartsWith expression "github.ref_name" then
        let r := askUser user
          (.textInput "Enter branch/tag name" (some "main")) s
        (r.1, setResolved r.2 expression r.1)
      else if strStartsWith expression "github.sha" then
        let r := askUser user
          (.textInput "Enter commit SHA" (some "abc123def456")) s
        (r.1, setResolved r.2 expression r.1)
      else if strStartsWith expression "github.workspace" then
        let r := askUser user
          (.textInput "Enter workspace path"
            (some "/home/runner/work/repo/repo")) s
        (r.1, setResolved r.2 expression r.1)
      else if strIncludes expression "fromJSON(" && strIncludes expression ")"
      then
        match fromJSONCapture expression.data with
        | some innerChars =>
          -- the fromJSON branch returns without caching in both arms
          let r := resolveGitHubExpressionF jp user workflow fuel
            (String.mk innerChars) s
          match jp r.1 with
          | some reserialized => (reserialized, r.2)
          | none => r
        | none => resolveNeedsOrFallback user expression s
      else resolveNeedsOrFallback user expression s

def resolveGitHubExpression (jp : String → Option String)
    (user : UserOracle) (workflow : Workflow) (expression : String)
    (s : RState) : String × RState :=
  resolveGitHubExpressionF jp user workflow (expression.length + 1)
    expression s

/-- `resolveStepOutput`: look up `steps.<id>.outputs.<name>` in the current
job's recorded step outputs; every miss (including a malformed reference)
free-text-prompts with placeholder `output-value` and caches nothing. -/
def resolveStepOutput (user : UserOracle) (expression currentStepId
    currentJobName : String) (s : RState) : String × RState :=
  let prompt : String × RState :=
    askUser user
      (.textInput ("Enter value for step output " ++ sq ++ expression ++ sq)
        (some "output-value")) s
  match stepsOutputsMatch expression with
  | none => prompt
  | some (stepId, outputName) =>
    match aGet s.ctx.stepOutputs currentJobName with
    | some jm =>
      match aGet jm stepId with
      | some sm =>
        match aGet sm outputName with
        | some v => (v, s)
        | none => prompt
      | none => prompt
    | none => prompt

/-- The body of the per-expression loop of `resolveVariablesInCommand`:
how one extracted expression is resolved. A `matrix.<key>` expression with
a supplied bindings object is substituted directly when the key is bound,
and otherwise free-text-prompted (placeholder `matrix-value`) without ever
touching `context.resolvedVariables`. -/
def resolveOneInCommand (jp : String → Option String) (user : UserOracle)
    (workflow : Workflow) (stepId jobName : String)
    (matrixValue : Option (AMap JsonVal)) (expression : String)
    (s : RState) : String × RState :=
  if strStartsWith expression "matrix." && matrixValue.isSome then
    let m := matrixValue.getD []
    let matrixKey := jsReplaceFirst expression "matrix." ""
    match aGet m matrixKey with
    | some mv => (jsToString mv, s)
    | none =>
      askUser user
        (.textInput ("Enter value for matrix variable " ++ sq ++ expression
          ++ sq) (some "matrix-value")) s
  else if strStartsWith expression "steps." && strIncludes expression ".outputs."
  then
    resolveStepOutput user expression stepId jobName s
  else
    resolveGitHubExpression jp user workflow expression s

/-- The fold of `resolveVariablesInCommand` over the extracted expressions:
resolve each and splice it over the first occurrence of the exact
placeholder text `${{ <expression> }}`. -/
def resolveCommandLoop (jp : String → Option String) (user : UserOracle)
    (workflow : Workflow) (stepId jobName : String)
    (matrixValue : Option (AMap JsonVal)) :
    List String → String → RState → String × RState
  | [], cmd, s => (cmd, s)
  | expression :: rest, cmd, s =>
    let r := resolveOneInCommand jp user workflow stepId jobName matrixValue
      expression s
    let placeholder := "$\x7b\x7b " ++ expression ++ " \x7d\x7d"
    resolveCommandLoop jp user workflow stepId jobName matrixValue rest
      (jsReplaceFirst cmd placeholder r.1) r.2

/-- `resolveVariablesInCommand` of `src/lib/resolve-variable.ts`. -/
def resolveVariablesInCommand (jp : String → Option String)
    (user : UserOracle) (workflow : Workflow) (command : String)
    (stepId jobName : String) (s : RState)
    (matrixValue : Option (AMap JsonVal)) : String × RState :=
  let expressions := extractGitHubExpressions command
  if expressions.isEmpty then (command, s)
  else resolveCommandLoop jp user workflow stepId jobName matrixValue
    expressions command s

/-! ## The job-output step reference
(`/\$?\{\{\s*steps\.([^.]+)\.outputs\.(.+?)\s*\}\}/`, first match anywhere;
the output-name capture is lazy, ending at the earliest point from which
optional whitespace and the two-brace closer follow) -/

def jobOutLazyName (acc : List Char) : List Char → Option (List Char × Nat)
  | [] => none
  | c :: cs =>
    if c = '\n' || c = '\r' then none
    else if ['}', '}'].isPrefixOf (cs.dropWhile isJsSpace) then
      some (acc ++ [c], cs.length)
    else jobOutLazyName (acc ++ [c]) cs

/-- Try the bracketed step-output pattern at the very start of the list
(after any optional `$` has been handled by the caller). -/
def jobOutTryAt (l : List Char) : Option (String × String) :=
  match l with
  | '{' :: '{' :: rest =>
    let afterWs := rest.dropWhile isJsSpace
    if "steps.".data.isPrefixOf afterWs then
      let afterSteps := afterWs.drop 6
      let stepId := afterSteps.takeWhile (fun ch => ch ≠ '.')
      let afterId := afterSteps.drop stepId.length
      if stepId.isEmpty then none
      else if ".outputs.".data.isPrefixOf afterId then
        match jobOutLazyName [] (afterId.drop 9) with
        | some (outName, _) => some (String.mk stepId, String.mk outName)
        | none => none
      else none
    else none
  | _ => none

def jobOutStepsScan : List Char → Option (String × String)
  | [] => none
  | c :: cs =>
    match jobOutTryAt (if c = '$' then cs else c :: cs) with
    | some r => some r
    | none => jobOutStepsScan cs

/-- `resolveJobOutputExpression`: resolve one job `outputs` value, looking
through the bracketed step-output reference first; a found step output is
returned uncached, any miss free-text-prompts (placeholder `output-value`)
uncached, and non-step expressions delegate to the main resolver. -/
def resolveJobOutputExpression (jp : String → Option String)
    (user : UserOracle) (workflow : Workflow) (expression jobName : String)
    (s : RState) : String × RState :=
  if strIncludes expression "steps." && strIncludes expression ".outputs."
  then
    let prompt : String × RState :=
      askUser user
        (.textInput ("Enter value for step output " ++ sq ++ expression ++ sq)
          (some "output-value")) s
    match jobOutStepsScan expression.data with
    | some (stepId, outputName) =>
      match aGet s.ctx.stepOutputs jobName with
      | some jm =>
        match aGet jm stepId with
        | some sm =>
          match aGet sm outputName with
          | some v => (v, s)
          | none => prompt
        | none => prompt
      | none => prompt
    | none => prompt
  else resolveGitHubExpression jp user workflow expression s

/-! ## Condition rewriting scanners (`src/lib/job.ts`)

Job conditions replace `needs.<job>.outputs.<name>` references, step
conditions replace `steps.<id>.outputs.<name>` references; both use the
regex shape `<lead>\.([^.]+)\.outputs\.([^.]+?)(?:\s|$|==|!=|>|<|>=|<=)`.
The output-name capture is lazy and the delimiter alternative list is
ordered (`>=`/`<=` are unreachable because `>`/`<` precede them), and the
consumed delimiter is part of the match text that later gets replaced. -/

/-- The `(?:\s|$|==|!=|>|<|>=|<=)` alternation, tried in source order at
one position; returns the consumed characters. -/
def condDelim : List Char → Option (List Char)
  | [] => some []
  | c :: cs =>
    if isJsSpace c then some [c]
    else if c = '=' then
      match cs with
      | '=' :: _ => some ['=', '=']
      | _ => none
    else if c = '!' then
      match cs with
      | '=' :: _ => some ['!', '=']
      | _ => none
    else if c = '>' then some ['>']
    else if c = '<' then some ['<']
    else none

/-- The lazy `([^.]+?)` capture followed by the delimiter: consume as few
non-dot characters as possible (at least one) until the delimiter
alternation matches. -/
def lazyOutScan (acc : List Char) : List Char → Option (List Char × List Char)
  | [] => none
  | c :: cs =>
    if c = '.' then none
    else
      match condDelim cs with
      | some d => some (acc ++ [c], d)
      | none => lazyOutScan (acc ++ [c]) cs

theorem one_le_length_of_not_isEmpty {α : Type} {l : List α}
    (h : ¬ l.isEmpty = true) : 1 ≤ l.length := by
  cases l with
  | nil => simp at h
  | cons x xs => simp

/-- Global scan for `<lead><name>.outputs.<out><delim>`; yields, for every
match in order, the full match text and the two captures. Scanning resumes
after each match, or one character past a failed attempt. -/
def findOutputRefsG (lead : List Char) :
    Nat → List Char → List (String × String × String)
  | 0, _ => []
  | fuel + 1, l =>
    match l with
    | [] => []
    | c :: cs =>
      if lead.isPrefixOf (c :: cs) ∧ ¬lead.isEmpty then
        let afterLead := (c :: cs).drop lead.length
        let refName := afterLead.takeWhile (fun ch => ch ≠ '.')
        if refName.isEmpty then findOutputRefsG lead fuel cs
        else
          let afterName := afterLead.drop refName.length
          if ".outputs.".data.isPrefixOf afterName then
            match lazyOutScan [] (afterName.drop 9) with
            | some (outName, delim) =>
              let matchLen := lead.length + refName.length + 9
                + outName.length + delim.length
              (String.mk ((c :: cs).take matchLen), String.mk refName,
                String.mk outName) ::
                findOutputRefsG lead fuel ((c :: cs).drop matchLen)
            | none => findOutputRefsG lead fuel cs
          else findOutputRefsG lead fuel cs
      else findOutputRefsG lead fuel cs

/-- The `needs.<job>.outputs.<name>` scan of `evaluateJobCondition`. -/
def findNeedsOutputRefs (l : List Char) : List (String × String × String) :=
  findOutputRefsG "needs.".data (l.length + 1) l

/-- The `steps.<id>.outputs.<name>` scan of `evaluateStepCondition`. -/
def findStepOutputRefs (l : List Char) : List (String × String × String) :=
  findOutputRefsG "steps.".data (l.length + 1) l

/-- Global scan for `needs\.([^.]+)\.result`. -/
def findNeedsResultsF : Nat → List Char → List String
  | 0, _ => []
  | fuel + 1, l =>
    match l with
    | [] => []
    | c :: cs =>
      if "needs.".data.isPrefixOf (c :: cs) then
        let afterNeeds := cs.drop 5
        let jobName := afterNeeds.takeWhile (fun ch => ch ≠ '.')
        if jobName.isEmpty then findNeedsResultsF fuel cs
        else
          let afterJob := afterNeeds.drop jobName.length
          if ".result".data.isPrefixOf afterJob then
            let matchLen := 6 + jobName.length + 7
            String.mk ((c :: cs).take matchLen) ::
              findNeedsResultsF fuel ((c :: cs).drop matchLen)
          else findNeedsResultsF fuel cs
      else findNeedsResultsF fuel cs

def findNeedsResults (l : List Char) : List String :=
  findNeedsResultsF (l.length + 1) l

/-- Test for the function-call shape `^(\w+)\((.*)\)$` (the dot does not
cross line terminators, so a multi-line expression never matches). -/
def isFnCallShape (s : String) : Bool :=
  let l := s.data
  let name := l.takeWhile isWordChar
  let rest := l.drop name.length
  if name.isEmpty then false
  else
    match rest with
    | '(' :: rs =>
      match rs.getLast? with
      | some ')' =>
        (rs.dropLast.all (fun ch => ch ≠ '\n' && ch ≠ '\r'))
      | _ => false
    | _ => false

/-- The greedy `(?:\.[\w]+)*` continuation of a direct reference. -/
def wordRunsAfterDotF : Nat → List Char → List Char
  | 0, _ => []
  | fuel + 1, l =>
    match l with
    | '.' :: c :: cs =>
      if isWordChar c then
        let run := (c :: cs).takeWhile isWordChar
        '.' :: (run ++ wordRunsAfterDotF fuel ((c :: cs).drop run.length))
      else []
    | _ => []

def wordRunsAfterDot (l : List Char) : List Char :=
  wordRunsAfterDotF (l.length + 1) l

/-- Global scan for `\bgithub\.\w+(?:\.[\w]+)*`: bare dotted `github.*`
references; `prevIsWord` carries the word-boundary context. -/
def findDirectGitHubRefsF : Nat → Bool → List Char → List String
  | 0, _, _ => []
  | fuel + 1, prevIsWord, l =>
    match l with
    | [] => []
    | c :: cs =>
      if ¬prevIsWord ∧ "github.".data.isPrefixOf (c :: cs) then
        let afterG := cs.drop 6
        let run := afterG.takeWhile isWordChar
        if run.isEmpty then findDirectGitHubRefsF fuel (isWordChar c) cs
        else
          let refChars := "github.".data ++ run ++
            wordRunsAfterDot (afterG.drop run.length)
          String.mk refChars ::
            findDirectGitHubRefsF fuel true ((c :: cs).drop refChars.length)
      else findDirectGitHubRefsF fuel (isWordChar c) cs

def findDirectGitHubRefs (prevIsWord : Bool) (l : List Char) :
    List String :=
  findDirectGitHubRefsF (l.length + 1) prevIsWord l

/-- Replace every word-boundary-delimited occurrence of `refChars` (the
`new RegExp('\\b<ref>\\b', 'g')` replacement; the reference starts and
ends with word characters). -/
def replaceWordBoundedAllF (refChars repChars : List Char) :
    Nat → Bool → List Char → List Char
  | 0, _, _ => []
  | fuel + 1, prevIsWord, l =>
    match l with
    | [] => []
    | c :: cs =>
      if (¬refChars.isEmpty) ∧ ¬prevIsWord ∧ refChars.isPrefixOf (c :: cs)
      then
        let rest := (c :: cs).drop refChars.length
        if (rest.head?.map isWordChar).getD false then
          c :: replaceWordBoundedAllF refChars repChars fuel (isWordChar c) cs
        else
          repChars ++ replaceWordBoundedAllF refChars repChars fuel true rest
      else c :: replaceWordBoundedAllF refChars repChars fuel (isWordChar c) cs

def replaceWordBoundedAll (refChars repChars : List Char)
    (prevIsWord : Bool) (l : List Char) : List Char :=
  replaceWordBoundedAllF refChars repChars (l.length + 1) prevIsWord l

/-! ## The restricted expression evaluator

`evaluateJobCondition` / `evaluateStepCondition` hand the rewritten
condition to the host `eval` with the seven workflow functions in scope
(`always`, `success`, `failure`, `cancelled`, `startsWith`, `endsWith`,
`contains`).  We model `eval` on the expression grammar the rewriting is
designed to produce — string/number/boolean literals, dotted identifiers,
calls of the in-scope functions, `!`, comparisons, `&&`/`||` — with every
other input an error; the caller catches every error as `false`. -/

inductive JSVal where
  | str (s : String)
  | num (n : Int)
  | boolean (b : Bool)
  | undef
  | fnRef (name : String)
deriving Repr, DecidableEq

def jsTruthy : JSVal → Bool
  | .str s => s ≠ ""
  | .num n => n ≠ 0
  | .boolean b => b
  | .undef => false
  | .fnRef _ => true

/-- JS `ToNumber` for the values above; `none` stands for NaN. -/
def toNumber : JSVal → Option Int
  | .num n => some n
  | .boolean b => some (if b then 1 else 0)
  | .str s =>
    let t := strTrim s
    if t = "" then some 0
    else if t.data.all (fun c => '0' ≤ c && c ≤ '9') then
      some (Int.ofNat (digitsToNat t.data))
    else none
  | .undef => none
  | .fnRef _ => none

/-- JS abstract equality restricted to the value set above: same-type
comparison, `undefined` equal only to itself, and otherwise numeric
coercion with NaN unequal to everything. -/
def jsEq : JSVal → JSVal → Bool
  | .str a, .str b => a == b
  | .num a, .num b => a == b
  | .boolean a, .boolean b => a == b
  | .undef, .undef => true
  | .fnRef a, .fnRef b => a == b
  | .undef, _ => false
  | _, .undef => false
  | a, b =>
    match toNumber a, toNumber b with
    | some x, some y => x == y
    | _, _ => false

/-- JS `<` restricted to the value set above (strings compare
lexicographically, otherwise numeric with NaN incomparable). -/
def jsLess : JSVal → JSVal → Bool
  | .str a, .str b => strLt a b
  | a, b =>
    match toNumber a, toNumber b with
    | some x, some y => decide (x < y)
    | _, _ => false

inductive BinOp where
  | eqOp | neOp | ltOp | leOp | gtOp | geOp | andOp | orOp
deriving Repr, DecidableEq

inductive JSExpr where
  | lit (v : JSVal)
  | identRef (name : String)
  | call (fname : String) (args : List JSExpr)
  | unaryNot (e : JSExpr)
  | binop (op : BinOp) (a b : JSExpr)

inductive Tok where
  | str (s : String)
  | num (n : Int)
  | ident (name : String)
  | lparen | rparen | comma
  | bang | eqeq | noteq | ltTok | leTok | gtTok | geTok | andand | oror
deriving Repr, DecidableEq

def isIdentStart (c : Char) : Bool :=
  ('a' ≤ c && c ≤ 'z') || ('A' ≤ c && c ≤ 'Z') || c = '_' || c = '$'

def isIdentChar (c : Char) : Bool :=
  isWordChar c || c = '.' || c = '$'

def escChar : Char → Char
  | 'n' => '\n'
  | 't' => '\t'
  | 'r' => '\r'
  | e => e

/-- Lex a string literal body after its opening quote. -/
def lexStringLit (q : Char) (acc : List Char) :
    List Char → Except String (String × List Char)
  | [] => .error "Invalid or unexpected token"
  | c :: cs =>
    if c = q then .ok (String.mk acc, cs)
    else if c = '\\' then
      match cs with
      | [] => .error "Invalid or unexpected token"
      | e :: cs2 => lexStringLit q (acc ++ [escChar e]) cs2
    else lexStringLit q (acc ++ [c]) cs

theorem lexStringLit_length_lt_aux (q : Char) :
    ∀ (n : Nat) (l acc : List Char) (s : String) (rest : List Char),
      l.length ≤ n → lexStringLit q acc l = .ok (s, rest) →
      rest.length < l.length := by
  intro n
  induction n with
  | zero =>
    intro l acc s rest hle h
    match l with
    | [] => simp [lexStringLit] at h
    | c :: cs => simp at hle
  | succ n ih =>
    intro l acc s rest hle h
    match l with
    | [] => simp [lexStringLit] at h
    | c :: cs =>
      unfold lexStringLit at h
      split at h
      · simp only [Except.ok.injEq, Prod.mk.injEq] at h
        simp [← h.2]
      · split at h
        · match cs, h with
          | [], h => simp at h
          | e :: cs2, h =>
            have hrec := ih cs2 (acc ++ [escChar e]) s rest
              (by simp only [List.length_cons] at hle ⊢; omega) h
            simp only [List.length_cons] at hrec ⊢
            omega
        · have hrec := ih cs (acc ++ [c]) s rest
            (by simp only [List.length_cons] at hle; omega) h
          simp only [List.length_cons]
          omega

theorem lexStringLit_length_lt (q : Char) (acc l : List Char) (s : String)
    (rest : List Char) (h : lexStringLit q acc l = .ok (s, rest)) :
    rest.length < l.length :=
  lexStringLit_length_lt_aux q l.length l acc s rest (le_refl _) h

def lexCharsF : Nat → List Char → Except String (List Tok)
  | 0, _ => .error "expression too long"
  | fuel + 1, l =>
    match l with
    | [] => .ok []
    | c :: cs =>
      if isJsSpace c then lexCharsF fuel cs
      else if c = '(' then (lexCharsF fuel cs).map (Tok.lparen :: ·)
      else if c = ')' then (lexCharsF fuel cs).map (Tok.rparen :: ·)
      else if c = ',' then (lexCharsF fuel cs).map (Tok.comma :: ·)
      else if c = '&' then
        match cs with
        | '&' :: cs2 => (lexCharsF fuel cs2).map (Tok.andand :: ·)
        | _ => .error "Unexpected token"
      else if c = '|' then
        match cs with
        | '|' :: cs2 => (lexCharsF fuel cs2).map (Tok.oror :: ·)
        | _ => .error "Unexpected token"
      else if c = '=' then
        match cs with
        | '=' :: cs2 => (lexCharsF fuel cs2).map (Tok.eqeq :: ·)
        | _ => .error "Unexpected token"
      else if c = '!' then
        match cs with
        | '=' :: cs2 => (lexCharsF fuel cs2).map (Tok.noteq :: ·)
        | other => (lexCharsF fuel other).map (Tok.bang :: ·)
      else if c = '<' then
        match cs with
        | '=' :: cs2 => (lexCharsF fuel cs2).map (Tok.leTok :: ·)
        | other => (lexCharsF fuel other).map (Tok.ltTok :: ·)
      else if c = '>' then
        match cs with
        | '=' :: cs2 => (lexCharsF fuel cs2).map (Tok.geTok :: ·)
        | other => (lexCharsF fuel other).map (Tok.gtTok :: ·)
      else if c = '"' ∨ c = Char.ofNat 39 then
        match lexStringLit c [] cs with
        | .ok (s, rest) => (lexCharsF fuel rest).map (Tok.str s :: ·)
        | .error e => .error e
      else if '0' ≤ c ∧ c ≤ '9' then
        -- the maximal digit run starting at `c`
        let moreDigits := cs.takeWhile (fun ch => '0' ≤ ch && ch ≤ '9')
        let rest := cs.drop moreDigits.length
        (lexCharsF fuel rest).map
          (Tok.num (Int.ofNat (digitsToNat (c :: moreDigits))) :: ·)
      else if isIdentStart c then
        -- the maximal identifier run (dotted references stay one token)
        let moreId := cs.takeWhile isIdentChar
        let rest := cs.drop moreId.length
        (lexCharsF fuel rest).map (Tok.ident (String.mk (c :: moreId)) :: ·)
      else .error "Unexpected token"

def lexChars (l : List Char) : Except String (List Tok) :=
  lexCharsF (l.length + 1) l

/-- The functions the source places in scope for the evaluation. -/
def builtinNames : List String :=
  ["always", "success", "failure", "cancelled",
   "startsWith", "endsWith", "contains"]

/-- `startsWith(str, searchString)` with its non-string guard. -/
def jsStartsWith (s searchString : JSVal) : JSVal :=
  match s, searchString with
  | .str a, .str b => .boolean (strStartsWith a b)
  | _, _ => .boolean false

/-- `endsWith(str, searchString)` with its non-string guard. -/
def jsEndsWith (s searchString : JSVal) : JSVal :=
  match s, searchString with
  | .str a, .str b => .boolean (strEndsWith a b)
  | _, _ => .boolean false

/-- `contains(str, searchString)` with its non-string guard. -/
def jsContains (s searchString : JSVal) : JSVal :=
  match s, searchString with
  | .str a, .str b => .boolean (strIncludes a b)
  | _, _ => .boolean false

/-- Fetch a call argument; JS supplies `undefined` for missing ones. -/
def jsArg (args : List JSVal) (i : Nat) : JSVal :=
  args.getD i .undef

def applyBuiltin (fname : String) (args : List JSVal) :
    Except String JSVal :=
  match fname with
  | "always" => .ok (.boolean true)
  | "success" => .ok (.boolean true)
  | "failure" => .ok (.boolean false)
  | "cancelled" => .ok (.boolean false)
  | "startsWith" => .ok (jsStartsWith (jsArg args 0) (jsArg args 1))
  | "endsWith" => .ok (jsEndsWith (jsArg args 0) (jsArg args 1))
  | "contains" => .ok (jsContains (jsArg args 0) (jsArg args 1))
  | _ => .error (fname ++ " is not defined")

def jsLessEq : JSVal → JSVal → Bool
  | .str a, .str b => (a == b) || strLt a b
  | a, b =>
    match toNumber a, toNumber b with
    | some x, some y => decide (x ≤ y)
    | _, _ => false

mutual

/-- Evaluate an expression of the restricted grammar; `&&`/`||` return an
operand and short-circuit, comparisons produce booleans, an identifier that
is not one of the in-scope functions raises a reference error. -/
def evalJS : JSExpr → Except String JSVal
  | .lit v => .ok v
  | .identRef name =>
    if builtinNames.contains name then .ok (.fnRef name)
    else .error (name ++ " is not defined")
  | .call fname args =>
    if builtinNames.contains fname then
      match evalJSArgs args with
      | .ok vs => applyBuiltin fname vs
      | .error e => .error e
    else .error (fname ++ " is not defined")
  | .unaryNot e =>
    match evalJS e with
    | .ok v => .ok (.boolean (!jsTruthy v))
    | .error e => .error e
  | .binop op a b =>
    match evalJS a with
    | .error e => .error e
    | .ok va =>
      match op with
      | .andOp => if jsTruthy va then evalJS b else .ok va
      | .orOp => if jsTruthy va then .ok va else evalJS b
      | .eqOp => (evalJS b).map (fun vb => .boolean (jsEq va vb))
      | .neOp => (evalJS b).map (fun vb => .boolean (!jsEq va vb))
      | .ltOp => (evalJS b).map (fun vb => .boolean (jsLess va vb))
      | .leOp => (evalJS b).map (fun vb => .boolean (jsLessEq va vb))
      | .gtOp => (evalJS b).map (fun vb => .boolean (jsLess vb va))
      | .geOp => (evalJS b).map (fun vb => .boolean (jsLessEq vb va))

def evalJSArgs : List JSExpr → Except String (List JSVal)
  | [] => .ok []
  | e :: es =>
    match evalJS e with
    | .ok v => (evalJSArgs es).map (v :: ·)
    | .error err => .error err

end

/-! ### Recursive-descent parsing of the token stream

One fuel unit is spent per production call, so a fuel a few multiples of
the token count is always enough; exhaustion is reported as an error and
hence, like every other error, turns into `false` at the catch site. -/

mutual

def parsePrimary : Nat → List Tok → Except String (JSExpr × List Tok)
  | 0, _ => .error "expression too deep"
  | _ + 1, [] => .error "Unexpected end of input"
  | fuel + 1, t :: ts =>
    match t with
    | .str s => .ok (.lit (.str s), ts)
    | .num n => .ok (.lit (.num n), ts)
    | .ident "true" => .ok (.lit (.boolean true), ts)
    | .ident "false" => .ok (.lit (.boolean false), ts)
    | .ident "undefined" => .ok (.lit .undef, ts)
    | .ident name =>
      match ts with
      | .lparen :: .rparen :: rest => .ok (.call name [], rest)
      | .lparen :: rest =>
        match parseArgsRest fuel rest with
        | .ok (args, rest2) => .ok (.call name args, rest2)
        | .error e => .error e
      | _ => .ok (.identRef name, ts)
    | .lparen =>
      match parseOr fuel ts with
      | .ok (e, rest) =>
        match rest with
        | .rparen :: rest2 => .ok (e, rest2)
        | _ => .error "Unexpected token"
      | .error e => .error e
    | _ => .error "Unexpected token"

/-- Parse comma-separated arguments up to the closing parenthesis. -/
def parseArgsRest : Nat → List Tok → Except String (List JSExpr × List Tok)
  | 0, _ => .error "expression too deep"
  | fuel + 1, ts =>
    match parseOr fuel ts with
    | .ok (e, rest) =>
      match rest with
      | .comma :: rest2 =>
        match parseArgsRest fuel rest2 with
        | .ok (es, rest3) => .ok (e :: es, rest3)
        | .error err => .error err
      | .rparen :: rest2 => .ok ([e], rest2)
      | _ => .error "Unexpected token"
    | .error e => .error e

def parseUnary : Nat → List Tok → Except String (JSExpr × List Tok)
  | 0, _ => .error "expression too deep"
  | fuel + 1, ts =>
    match ts with
    | .bang :: rest =>
      match parseUnary fuel rest with
      | .ok (e, rest2) => .ok (.unaryNot e, rest2)
      | .error e => .error e
    | _ => parsePrimary fuel ts

def parseRel : Nat → List Tok → Except String (JSExpr × List Tok)
  | 0, _ => .error "expression too deep"
  | fuel + 1, ts =>
    match parseUnary fuel ts with
    | .ok (a, rest) => parseRelRest fuel a rest
    | .error e => .error e

def parseRelRest : Nat → JSExpr → List Tok →
    Except String (JSExpr × List Tok)
  | 0, _, _ => .error "expression too deep"
  | fuel + 1, a, ts =>
    match ts with
    | .ltTok :: rest => parseRelStep fuel a .ltOp rest
    | .leTok :: rest => parseRelStep fuel a .leOp rest
    | .gtTok :: rest => parseRelStep fuel a .gtOp rest
    | .geTok :: rest => parseRelStep fuel a .geOp rest
    | other => .ok (a, other)

def parseRelStep : Nat → JSExpr → BinOp → List Tok →
    Except String (JSExpr × List Tok)
  | 0, _, _, _ => .error "expression too deep"
  | fuel + 1, a, op, ts =>
    match parseUnary fuel ts with
    | .ok (b, rest) => parseRelRest fuel (.binop op a b) rest
    | .error e => .error e

def parseEq : Nat → List Tok → Except String (JSExpr × List Tok)
  | 0, _ => .error "expression too deep"
  | fuel + 1, ts =>
    match parseRel fuel ts with
    | .ok (a, rest) => parseEqRest fuel a rest
    | .error e => .error e

def parseEqRest : Nat → JSExpr → List Tok →
    Except String (JSExpr × List Tok)
  | 0, _, _ => .error "expression too deep"
  | fuel + 1, a, ts =>
    match ts with
    | .eqeq :: rest => parseEqStep fuel a .eqOp rest
    | .noteq :: rest => parseEqStep fuel a .neOp rest
    | other => .ok (a, other)

def parseEqStep : Nat → JSExpr → BinOp → List Tok →
    Except String (JSExpr × List Tok)
  | 0, _, _, _ => .error "expression too deep"
  | fuel + 1, a, op, ts =>
    match parseRel fuel ts with
    | .ok (b, rest) => parseEqRest fuel (.binop op a b) rest
    | .error e => .error e

def parseAnd : Nat → List Tok → Except String (JSExpr × List Tok)
  | 0, _ => .error "expression too deep"
  | fuel + 1, ts =>
    match parseEq fuel ts with
    | .ok (a, rest) => parseAndRest fuel a rest
    | .error e => .error e

def parseAndRest : Nat → JSExpr → List Tok →
    Except String (JSExpr × List Tok)
  | 0, _, _ => .error "expression too deep"
  | fuel + 1, a, ts =>
    match ts with
    | .andand :: rest =>
      match parseEq fuel rest with
      | .ok (b, rest2) => parseAndRest fuel (.binop .andOp a b) rest2
      | .error e => .error e
    | other => .ok (a, other)

def parseOr : Nat → List Tok → Except String (JSExpr × List Tok)
  | 0, _ => .error "expression too deep"
  | fuel + 1, ts =>
    match parseAnd fuel ts with
    | .ok (a, rest) => parseOrRest fuel a rest
    | .error e => .error e

def parseOrRest : Nat → JSExpr → List Tok →
    Except String (JSExpr × List Tok)
  | 0, _, _ => .error "expression too deep"
  | fuel + 1, a, ts =>
    match ts with
    | .oror :: rest =>
      match parseAnd fuel rest with
      | .ok (b, rest2) => parseOrRest fuel (.binop .orOp a b) rest2
      | .error e => .error e
    | other => .ok (a, other)

end

/-- The modelled host `eval` of a rewritten condition: lex, parse a single
expression, evaluate it with the workflow functions in scope. -/
def jsEvalString (s : String) : Except String JSVal :=
  match lexChars s.data with
  | .error e => .error e
  | .ok toks =>
    match parseOr (8 * (toks.length + 1)) toks with
    | .error e => .error e
    | .ok (e, rest) =>
      if rest.isEmpty then evalJS e
      else .error "Unexpected token"

/-- The `try { eval } catch { return false }` tail shared by both
condition evaluators: `Boolean(eval(resolvedCondition))`, any evaluation
error caught and converted to `false`. -/
def evalRewrittenCondition (cond : String) : Bool :=
  match jsEvalString cond with
  | .ok v => jsTruthy v
  | .error _ => false

/-! ## The condition evaluators (`src/lib/job.ts`) -/

def quoteStr (v : String) : String := "\"" ++ v ++ "\""

def mkPlaceholder (e : String) : String :=
  "$\x7b\x7b " ++ e ++ " \x7d\x7d"

/-- Replace each scanned output reference by its quoted recorded value,
failing fast (the whole condition becomes `false`) at the first reference
missing from the recorded outputs. -/
def replaceRefsOrFail (outputs : AMap (AMap String)) :
    List (String × String × String) → String → Option String
  | [], cond => some cond
  | (matchText, refName, outName) :: rest, cond =>
    match aGet outputs refName with
    | some om =>
      match aGet om outName with
      | some value =>
        replaceRefsOrFail outputs rest
          (jsReplaceFirst cond matchText (quoteStr value))
      | none => none
    | none => none

/-- First expression pass: function-call-shaped expressions are unwrapped
(`${{ }}` removed, call kept); others are resolved and quoted. -/
def condExprPass1 (jp : String → Option String) (user : UserOracle)
    (workflow : Workflow) :
    List String → String → RState → String × RState
  | [], cond, s => (cond, s)
  | expression :: rest, cond, s =>
    if isFnCallShape expression then
      condExprPass1 jp user workflow rest
        (jsReplaceFirst cond (mkPlaceholder expression) expression) s
    else
      let r := resolveGitHubExpression jp user workflow expression s
      condExprPass1 jp user workflow rest
        (jsReplaceFirst cond (mkPlaceholder expression) (quoteStr r.1)) r.2

/-- Second expression pass: everything still wrapped is resolved and
quoted (expressions nested inside an unwrapped function call). -/
def condExprPass2 (jp : String → Option String) (user : UserOracle)
    (workflow : Workflow) :
    List String → String → RState → String × RState
  | [], cond, s => (cond, s)
  | expression :: rest, cond, s =>
    let r := resolveGitHubExpression jp user workflow expression s
    condExprPass2 jp user workflow rest
      (jsReplaceFirst cond (mkPlaceholder expression) (quoteStr r.1)) r.2

/-- Bare `github.*` dotted references: resolved and substituted (with word
boundaries, all occurrences) unless the quoted form already occurs. -/
def condDirectRefs (jp : String → Option String) (user : UserOracle)
    (workflow : Workflow) :
    List String → String → RState → String × RState
  | [], cond, s => (cond, s)
  | ref :: rest, cond, s =>
    if strIncludes cond (quoteStr ref) then
      condDirectRefs jp user workflow rest cond s
    else
      let r := resolveGitHubExpression jp user workflow ref s
      condDirectRefs jp user workflow rest
        (String.mk (replaceWordBoundedAll ref.data (quoteStr r.1).data
          false cond.data)) r.2

/-- The rewriting pipeline of `evaluateJobCondition` up to the final
evaluation. `none` is the fail-fast exit taken when the condition
references a `needs.<job>.outputs.<name>` that is not recorded. -/
def rewriteJobCondition (jp : String → Option String) (user : UserOracle)
    (workflow : Workflow) (condition : String) (s : RState) :
    Option (String × RState) :=
  match replaceRefsOrFail s.ctx.jobOutputs
      (findNeedsOutputRefs condition.data) condition with
  | none => none
  | some c1 =>
    let c2 := (findNeedsResults condition.data).foldl
      (fun acc mt => jsReplaceFirst acc mt (quoteStr "success")) c1
    let r3 := condExprPass1 jp user workflow
      (extractGitHubExpressions c2) c2 s
    let r4 := condExprPass2 jp user workflow
      (extractGitHubExpressions r3.1) r3.1 r3.2
    let r5 := condDirectRefs jp user workflow
      (findDirectGitHubRefs false r4.1.data) r4.1 r4.2
    some r5

/-- `evaluateJobCondition` of `src/lib/job.ts`. -/
def evaluateJobCondition (jp : String → Option String) (user : UserOracle)
    (workflow : Workflow) (condition : String) (s : RState) :
    Bool × RState :=
  if condition = "" then (true, s)
  else
    match rewriteJobCondition jp user workflow condition s with
    | none => (false, s)
    | some (c, s') => (evalRewrittenCondition c, s')

/-- The rewriting pipeline of `evaluateStepCondition`: step-output
references are replaced from the current job's recorded step outputs,
failing fast on a missing reference; the rest is as for job conditions. -/
def rewriteStepCondition (jp : String → Option String) (user : UserOracle)
    (workflow : Workflow) (condition jobName : String) (s : RState) :
    Option (String × RState) :=
  match replaceRefsOrFail ((aGet s.ctx.stepOutputs jobName).getD [])
      (findStepOutputRefs condition.data) condition with
  | none => none
  | some c1 =>
    let r3 := condExprPass1 jp user workflow
      (extractGitHubExpressions c1) c1 s
    let r4 := condExprPass2 jp user workflow
      (extractGitHubExpressions r3.1) r3.1 r3.2
    let r5 := condDirectRefs jp user workflow
      (findDirectGitHubRefs false r4.1.data) r4.1 r4.2
    some r5

/-- `evaluateStepCondition` of `src/lib/job.ts`. -/
def evaluateStepCondition (jp : String → Option String) (user : UserOracle)
    (workflow : Workflow) (condition jobName : String) (s : RState) :
    Bool × RState :=
  if condition = "" then (true, s)
  else
    match rewriteStepCondition jp user workflow condition jobName s with
    | none => (false, s)
    | some (c, s') => (evalRewrittenCondition c, s')

/-! ## JSON serialization (host `JSON.stringify`, written out concretely;
the host `JSON.parse` stays an oracle `String → Option JsonVal`) -/

def escapeJsonChar (c : Char) : List Char :=
  if c = '"' then ['\\', '"']
  else if c = '\\' then ['\\', '\\']
  else if c = '\n' then ['\\', 'n']
  else if c = '\r' then ['\\', 'r']
  else if c = '\t' then ['\\', 't']
  else [c]

def escapeJson (s : String) : String :=
  String.mk (s.data.flatMap escapeJsonChar)

mutual

def jsonStringify : JsonVal → String
  | .str s => "\"" ++ escapeJson s ++ "\""
  | .num n => toString n
  | .boolean b => if b then "true" else "false"
  | .nul => "null"
  | .arr l => "[" ++ String.intercalate "," (jsonStringifyList l) ++ "]"
  | .obj fs =>
    "\x7b" ++ String.intercalate "," (jsonStringifyFields fs) ++ "\x7d"

def jsonStringifyList : List JsonVal → List String
  | [] => []
  | v :: vs => jsonStringify v :: jsonStringifyList vs

def jsonStringifyFields : List (String × JsonVal) → List String
  | [] => []
  | (k, v) :: fs =>
    ("\"" ++ escapeJson k ++ "\":" ++ jsonStringify v) :: jsonStringifyFields fs

end

/-! ## Matrix expansion (`runWorkflow`, `src/lib/workflow.ts`)

An axis whose value is a string containing `${{` is resolved (the whole
raw string, braces included, is handed to the resolver) and then
JSON-parsed, a parse failure leaving the resolved string as a single
scalar; every other axis value is used as-is.  `generateCombinations`
then builds one binding set per element of the cartesian product across
the axis keys in declared order, a non-array axis value acting as a
one-element axis. -/

def resolveMatrixLoop (jparse : String → Option JsonVal) (user : UserOracle)
    (workflow : Workflow) :
    List (String × JsonVal) → AMap JsonVal → RState → AMap JsonVal × RState
  | [], acc, s => (acc, s)
  | (key, value) :: rest, acc, s =>
    match value with
    | .str strVal =>
      if strIncludes strVal "$\x7b\x7b" then
        let r := resolveGitHubExpression
          (fun t => (jparse t).map jsonStringify) user workflow strVal s
        match jparse r.1 with
        | some v => resolveMatrixLoop jparse user workflow rest
            (aSet acc key v) r.2
        | none => resolveMatrixLoop jparse user workflow rest
            (aSet acc key (.str r.1)) r.2
      else resolveMatrixLoop jparse user workflow rest (aSet acc key value) s
    | other => resolveMatrixLoop jparse user workflow rest
        (aSet acc key other) s

/-- `generateCombinations`: recursion over the axis keys in declared
order, accumulating the current combination. (The lookup default is
unreachable: the keys iterated are exactly the keys of the map.) -/
def generateCombinations (resolvedMatrix : AMap JsonVal) :
    List String → AMap JsonVal → List (AMap JsonVal)
  | [], current => [current]
  | key :: restKeys, current =>
    let v := (aGet resolvedMatrix key).getD .nul
    let values := match v with
      | .arr l => l
      | other => [other]
    values.flatMap
      (fun value =>
        generateCombinations resolvedMatrix restKeys (aSet current key value))

/-- Matrix expansion for an already-resolved matrix: the cartesian
product over `Object.keys(matrix)` in declared order. -/
def expandMatrix (resolvedMatrix : AMap JsonVal) : List (AMap JsonVal) :=
  generateCombinations resolvedMatrix (resolvedMatrix.map (·.1)) []

/-! ## The scheduler (`runWorkflow`, `src/lib/workflow.ts`)

Interactive confirmation, command execution (with its `GITHUB_OUTPUT`
file), the terraform version check and the mock-action machinery are
collaborators, modelled by oracles indexed by invocation count. The
engine's control flow — the pass-based dependency loop, the sticky
run-all modes, the early `return`s and the thrown user-quit — is
embedded directly. -/

inductive ConfirmAnswer where
  | yes | no | all | quit | skip
deriving Repr, DecidableEq

inductive Status where
  | success | failed | skipped
deriving Repr, DecidableEq

structure StepResult where
  name : String
  status : Status
  command : Option String
deriving Repr, DecidableEq

structure JobResult where
  name : String
  status : Status
  steps : List StepResult
deriving Repr, DecidableEq

/-- The `executeCommand` collaborator result, together with the content
the executed step left in its `GITHUB_OUTPUT` file. -/
structure ExecResult where
  success : Bool
  output : String
  error : String
  exitCode : Int
  githubOutputFile : String
deriving Repr

/-- Modelled from the spec: the mock-action collaborator (`handleAction`
of the current `step.ts`, whose status-returning revision is not among
the provided sources; per the spec a found mock yields recorded outputs
and a step status, a missing mock yields no outputs, and mock failures
never abort the run). -/
structure ActionResult where
  status : Status
  outputs : Option (List (String × String))
deriving Repr

structure SchedOracle where
  user : UserOracle
  confirm : Nat → ConfirmAnswer
  exec : Nat → ExecResult
  action : Nat → ActionResult
  terraform : Nat → Except String Unit
  jparse : String → Option JsonVal
  presolve : String → String → String

/-- The host JSON round-trip handed to the resolver. -/
def hostJp (O : SchedOracle) : String → Option String :=
  fun t => (O.jparse t).map jsonStringify

structure RunState where
  rs : RState
  confirmCount : Nat
  execCount : Nat
  actionCount : Nat
  tfCount : Nat
  runAllJobsMode : Bool
  runAllCommandsMode : Bool
  executionResults : List JobResult
  startTrace : List (String × List String)
deriving Repr, DecidableEq

def askConfirm (O : SchedOracle) (st : RunState) : ConfirmAnswer × RunState :=
  (O.confirm st.confirmCount, { st with confirmCount := st.confirmCount + 1 })

def pushResult (st : RunState) (r : JobResult) : RunState :=
  { st with executionResults := st.executionResults ++ [r] }

/-- `readGitHubOutputs`: parse the `key=value` lines of the structured
output file (first `=` splits, both sides trimmed) into a map. -/
def readGitHubOutputs (content : String) : AMap String :=
  (splitOnChar (Char.ofNat 10) content).foldl
    (fun acc line =>
      let t := strTrim line
      if t ≠ "" ∧ strIncludes t "=" then
        match splitOnChar '=' t with
        | key :: valueParts =>
          aSet acc (strTrim key) (strTrim (String.intercalate "=" valueParts))
        | [] => acc
      else acc) []

/-- The default step id: `name.toLowerCase().replace(/[^a-z0-9-]/g, '-')`. -/
def slugify (name : String) : String :=
  String.mk ((strToLower name).data.map
    (fun c =>
      if ('a' ≤ c ∧ c ≤ 'z') ∨ ('0' ≤ c ∧ c ≤ '9') ∨ c = '-' then c
      else '-'))

/-- Record outputs under `context.stepOutputs[jobName][stepId]`, creating
the intermediate maps as the source does. -/
def recordStepOutputs (ctx : WorkflowContext) (jobName stepId : String)
    (outs : AMap String) : WorkflowContext :=
  let jm := (aGet ctx.stepOutputs jobName).getD []
  let sm := (aGet jm stepId).getD []
  let sm2 := outs.foldl (fun acc p => aSet acc p.1 p.2) sm
  { ctx with stepOutputs := aSet ctx.stepOutputs jobName (aSet jm stepId sm2) }

/-- `areDependenciesMet`: every name in `needs` (a single name or a list)
is in the completed set; a missing — or JS-falsy, hence empty-string —
`needs` means no dependencies. -/
def areDependenciesMet (job : Job) (completedJobs : List String) : Bool :=
  match job.needs with
  | none => true
  | some (.one dep) =>
    if dep = "" then true else completedJobs.contains dep
  | some (.many deps) => deps.all (fun d => completedJobs.contains d)

/-- Replace every `${{ <ws> matrix.<key> <ws> }}` occurrence in a job
`env` value with the binding's stringified value (the per-key global
regex replacement of `runJobInstance`). -/
def matrixEnvReplaceAllF (key val : String) : Nat → List Char → List Char
  | 0, _ => []
  | fuel + 1, l =>
    match l with
    | [] => []
    | '$' :: '{' :: '{' :: rest =>
      if ("matrix.".data ++ key.data).isPrefixOf (rest.dropWhile isJsSpace)
      then
        match ((rest.dropWhile isJsSpace).drop
            (7 + key.length)).dropWhile isJsSpace with
        | '}' :: '}' :: rest2 =>
          val.data ++ matrixEnvReplaceAllF key val fuel rest2
        | _ => '$' :: matrixEnvReplaceAllF key val fuel ('{' :: '{' :: rest)
      else '$' :: matrixEnvReplaceAllF key val fuel ('{' :: '{' :: rest)
    | c :: cs => c :: matrixEnvReplaceAllF key val fuel cs

def matrixEnvReplaceAll (key val : String) (l : List Char) : List Char :=
  matrixEnvReplaceAllF key val (l.length + 1) l

/-- The per-expression resolve-and-substitute loop used on job `env`
values (resolved values are substituted unquoted). -/
def jobEnvExprLoop (jp : String → Option String) (user : UserOracle)
    (workflow : Workflow) :
    List String → String → RState → String × RState
  | [], v, s => (v, s)
  | expression :: rest, v, s =>
    let r := resolveGitHubExpression jp user workflow expression s
    jobEnvExprLoop jp user workflow rest
      (jsReplaceFirst v (mkPlaceholder expression) r.1) r.2

/-- Resolve the job-level `env` mapping for one instance: matrix bindings
substituted first, then every remaining expression resolved; non-string
values are stringified. -/
def resolveJobEnvLoop (jp : String → Option String) (user : UserOracle)
    (workflow : Workflow) (matrixValue : Option (AMap JsonVal)) :
    List (String × JsonVal) → AMap String → RState → AMap String × RState
  | [], acc, s => (acc, s)
  | (key, value) :: rest, acc, s =>
    match value with
    | .str strVal =>
      let withMatrix := match matrixValue with
        | some mv => mv.foldl
            (fun sv p =>
              String.mk (matrixEnvReplaceAll p.1 (jsToString p.2) sv.data))
            strVal
        | none => strVal
      let r := jobEnvExprLoop jp user workflow
        (extractGitHubExpressions withMatrix) withMatrix s
      resolveJobEnvLoop jp user workflow matrixValue rest
        (aSet acc key r.1) r.2
    | other => resolveJobEnvLoop jp user workflow matrixValue rest
        (aSet acc key (jsToString other)) s

/-- The outcome of processing one step past its condition check. -/
structure StepOutcome where
  thrown : Option String
  early : Bool
  stepStatus : Status
  jobStatusOverride : Option Status
  st : RunState

/-- The working-directory precedence for one step: step `working-directory`
(itself resolved, so it can prompt), then job defaults, then workflow
defaults (both already resolved), then the repository root; non-root
candidates go through the host `path.resolve`. -/
def resolveStepDir (O : SchedOracle) (wf : Workflow) (jobName stepId : String)
    (matrixValue : Option (AMap JsonVal)) (wfW jobW : Option String)
    (workingDir : String) (step : Step) (st : RunState) : String × RunState :=
  match step.workingDirectory with
  | some raw =>
    let r := resolveVariablesInCommand (hostJp O) O.user wf raw stepId
      jobName st.rs matrixValue
    (O.presolve workingDir r.1, { st with rs := r.2 })
  | none =>
    match jobW with
    | some d => (O.presolve workingDir d, st)
    | none =>
      match wfW with
      | some d => (O.presolve workingDir d, st)
      | none => (workingDir, st)

/-- Record the `GITHUB_OUTPUT` content of an executed command as step
outputs (only when at least one output was written). -/
def recordExecOutputs (ex : ExecResult) (jobName stepId : String)
    (st : RunState) : RunState :=
  let outs := readGitHubOutputs ex.githubOutputFile
  if outs.isEmpty then st
  else { st with rs := { st.rs with
    ctx := recordStepOutputs st.rs.ctx jobName stepId outs } }

/-- One step of `runJobInstance` past its condition check: the `run`
branch with its confirmation/execution/failure-continuation flow, the
`hashicorp/setup-terraform` special case (whose version-check failure is
thrown), the `actions/checkout` skip, the mock-action path, and the inert
placeholder.  `early` reports a `return` statement: the instance stops but
no exception unwinds. -/
def runStepOne (O : SchedOracle) (wf : Workflow) (isDryRun : Bool)
    (workingDir : String) (wfW jobW : Option String) (jobName : String)
    (matrixValue : Option (AMap JsonVal)) (step : Step) (stepId : String)
    (st : RunState) : StepOutcome :=
  match step.run with
  | some runCmd =>
    let d := resolveStepDir O wf jobName stepId matrixValue wfW jobW
      workingDir step st
    let r := resolveVariablesInCommand (hostJp O) O.user wf runCmd stepId
      jobName d.2.rs matrixValue
    let st1 := { d.2 with rs := r.2 }
    if isDryRun then ⟨none, false, .success, none, st1⟩
    else
      let sc :=
        if st1.runAllCommandsMode then (ConfirmAnswer.yes, st1)
        else askConfirm O st1
      match sc.1 with
      | .quit => ⟨none, true, .skipped, some .skipped, sc.2⟩
      | .skip => ⟨none, false, .skipped, none, sc.2⟩
      | .no => ⟨none, false, .success, none, sc.2⟩
      | _ =>
        let st3 :=
          if sc.1 = .all then { sc.2 with runAllCommandsMode := true }
          else sc.2
        let ex := O.exec st3.execCount
        let st4 := { st3 with execCount := st3.execCount + 1 }
        if ex.success then
          ⟨none, false, .success, none, recordExecOutputs ex jobName stepId st4⟩
        else
          let cc :=
            if st4.runAllCommandsMode then (ConfirmAnswer.yes, st4)
            else askConfirm O st4
          match cc.1 with
          | .quit => ⟨none, true, .failed, some .failed, cc.2⟩
          | .no => ⟨none, true, .failed, some .failed, cc.2⟩
          | other =>
            let st6 :=
              if other = .all then { cc.2 with runAllCommandsMode := true }
              else cc.2
            ⟨none, false, .failed, some .failed,
              recordExecOutputs ex jobName stepId st6⟩
  | none =>
    match step.uses with
    | some u =>
      if strIncludes u "hashicorp/setup-terraform" then
        let d := resolveStepDir O wf jobName stepId matrixValue wfW jobW
          workingDir step st
        match aGet step.withParams "terraform_version" with
        | none => ⟨none, false, .success, none, d.2⟩
        | some tv =>
          if tv = "" then ⟨none, false, .success, none, d.2⟩
          else
            let r := resolveVariablesInCommand (hostJp O) O.user wf tv
              "terraform-setup" jobName d.2.rs none
            let st1 := { d.2 with rs := r.2 }
            if isDryRun then ⟨none, false, .success, none, st1⟩
            else
              let st2 := { st1 with tfCount := st1.tfCount + 1 }
              match O.terraform st1.tfCount with
              | .ok _ => ⟨none, false, .success, none, st2⟩
              | .error msg => ⟨some msg, false, .success, none, st2⟩
      else if strStartsWith u "actions/checkout" then
        ⟨none, false, .skipped, none, st⟩
      else
        let d := resolveStepDir O wf jobName stepId matrixValue wfW jobW
          workingDir step st
        if isDryRun then ⟨none, false, .success, none, d.2⟩
        else
          let a := O.action d.2.actionCount
          let st1 := { d.2 with actionCount := d.2.actionCount + 1 }
          let st2 := match a.outputs with
            | some outs => { st1 with rs := { st1.rs with
                ctx := recordStepOutputs st1.rs.ctx jobName stepId outs } }
            | none => st1
          ⟨none, false, a.status,
            if a.status = .failed then some .failed else none, st2⟩
    | none => ⟨none, false, .success, none, st⟩

def addStep (jr : JobResult) (sr : StepResult) : JobResult :=
  { jr with steps := jr.steps ++ [sr] }

/-- The step loop of `runJobInstance`: default names/ids, the step `if`
check, dispatch to `runStepOne`, status bookkeeping, and propagation of
early returns and thrown errors. -/
def runStepsLoop (O : SchedOracle) (wf : Workflow) (isDryRun : Bool)
    (workingDir : String) (wfW jobW : Option String) (jobName : String)
    (matrixValue : Option (AMap JsonVal)) :
    List Step → Nat → JobResult → RunState →
    Option String × Bool × JobResult × RunState
  | [], _, jr, st => (none, false, jr, st)
  | step :: rest, i, jr, st =>
    let stepName := step.name.getD ("Step " ++ toString (i + 1))
    let stepId := step.id.getD (slugify stepName)
    let stepResult0 : StepResult := ⟨stepName, .success, step.run⟩
    let cm : Bool × RunState := match step.condIf with
      | some cond =>
        let r := evaluateStepCondition (hostJp O) O.user wf cond jobName st.rs
        (r.1, { st with rs := r.2 })
      | none => (true, st)
    if ¬cm.1 then
      runStepsLoop O wf isDryRun workingDir wfW jobW jobName matrixValue
        rest (i + 1) (addStep jr { stepResult0 with status := .skipped }) cm.2
    else
      let so := runStepOne O wf isDryRun workingDir wfW jobW jobName
        matrixValue step stepId cm.2
      let jr1 := addStep jr { stepResult0 with status := so.stepStatus }
      let jr2 := match so.jobStatusOverride with
        | some s => { jr1 with status := s }
        | none => jr1
      match so.thrown with
      | some msg => (some msg, false, jr2, so.st)
      | none =>
        if so.early then (none, true, jr2, so.st)
        else
          runStepsLoop O wf isDryRun workingDir wfW jobW jobName matrixValue
            rest (i + 1) jr2 so.st

/-- The per-output loop of the job `outputs` block: each value is an
expression resolved against the context (step outputs preferred) and
stored under `context.jobOutputs[jobName]`. -/
def collectJobOutputsLoop (jp : String → Option String) (user : UserOracle)
    (wf : Workflow) (jobName : String) :
    List (String × String) → RState → RState
  | [], s => s
  | (outputName, outputExpression) :: rest, s =>
    let r := resolveJobOutputExpression jp user wf outputExpression jobName s
    let jm := (aGet r.2.ctx.jobOutputs jobName).getD []
    collectJobOutputsLoop jp user wf jobName rest
      { r.2 with ctx := { r.2.ctx with
        jobOutputs := aSet r.2.ctx.jobOutputs jobName
          (aSet jm outputName r.1) } }

def collectJobOutputs (jp : String → Option String) (user : UserOracle)
    (wf : Workflow) (outputs : AMap String) (jobName : String)
    (s : RState) : RState :=
  let s0 :=
    if aHas s.ctx.jobOutputs jobName then s
    else { s with ctx := { s.ctx with
      jobOutputs := aSet s.ctx.jobOutputs jobName [] } }
  collectJobOutputsLoop jp user wf jobName outputs s0

/-- `runJobInstance`: one instance of a job (one matrix binding set, or
the unparameterized instance).  The result's first component is the
message of a thrown error (`quit` at the job confirmation, or a terraform
version-check failure), `none` for every normal return. -/
def runJobInstance (O : SchedOracle) (wf : Workflow) (isDryRun : Bool)
    (workingDir : String) (wfW : Option String) (jobName : String)
    (job : Job) (matrixValue : Option (AMap JsonVal)) (st : RunState) :
    Option String × RunState :=
  let jobDisplayName := match matrixValue with
    | some mv => jobName ++ " (" ++ jsonStringify (.obj mv) ++ ")"
    | none => jobName
  -- the TS pushes the result record first and mutates it through an
  -- alias; appending the finished record at the same position is
  -- equivalent because no other push can intervene
  let jr0 : JobResult := ⟨jobDisplayName, .success, []⟩
  let rc :=
    if st.runAllJobsMode then (ConfirmAnswer.yes, st) else askConfirm O st
  if rc.1 = .no ∨ rc.1 = .skip then
    (none, pushResult rc.2 { jr0 with status := .skipped })
  else if rc.1 = .quit then
    (some "Workflow execution stopped by user",
      pushResult rc.2 { jr0 with status := .skipped })
  else
    let st2 :=
      if rc.1 = .all then { rc.2 with runAllJobsMode := true } else rc.2
    let cm : Bool × RunState := match job.condIf with
      | some cond =>
        let r := evaluateJobCondition (hostJp O) O.user wf cond st2.rs
        (r.1, { st2 with rs := r.2 })
      | none => (true, st2)
    if ¬cm.1 then (none, pushResult cm.2 { jr0 with status := .skipped })
    else
      let re := resolveJobEnvLoop (hostJp O) O.user wf matrixValue job.env
        [] cm.2.rs
      let st4 := { cm.2 with rs := re.2 }
      let jw : Option String × RunState :=
        match job.defaultsRunWorkingDirectory with
        | some raw =>
          let r := resolveVariablesInCommand (hostJp O) O.user wf raw
            "job-defaults" jobName st4.rs matrixValue
          (some r.1, { st4 with rs := r.2 })
        | none => (none, st4)
      let sl := runStepsLoop O wf isDryRun workingDir wfW jw.1 jobName
        matrixValue job.steps 0 { jr0 with steps := [] } jw.2
      match sl.1 with
      | some msg => (some msg, pushResult sl.2.2.2 sl.2.2.1)
      | none =>
        if sl.2.1 then (none, pushResult sl.2.2.2 sl.2.2.1)
        else
          match job.outputs with
          | some outs =>
            let rs7 := collectJobOutputs (hostJp O) O.user wf outs jobName
              sl.2.2.2.rs
            (none, pushResult { sl.2.2.2 with rs := rs7 } sl.2.2.1)
          | none => (none, pushResult sl.2.2.2 sl.2.2.1)

/-- Ghost instrumentation: log that an instance of a job starts now, with
the completed set as it stands. -/
def recordStart (st : RunState) (jobName : String)
    (completed : List String) : RunState :=
  { st with startTrace := st.startTrace ++ [(jobName, completed)] }

/-- Run one instance per matrix combination, in emission order, stopping
at a thrown error; `anyRun` is the scheduler's progress flag, set after
each instance that returns. -/
def runMatrixInstances (O : SchedOracle) (wf : Workflow) (isDryRun : Bool)
    (workingDir : String) (wfW : Option String) (jobName : String)
    (job : Job) (completed : List String) :
    List (AMap JsonVal) → Bool → RunState →
    Option String × Bool × RunState
  | [], anyRun, st => (none, anyRun, st)
  | combo :: rest, anyRun, st =>
    let ri := runJobInstance O wf isDryRun workingDir wfW jobName job
      (some combo) (recordStart st jobName completed)
    match ri.1 with
    | some msg => (some msg, anyRun, ri.2)
    | none =>
      runMatrixInstances O wf isDryRun workingDir wfW jobName job completed
        rest true ri.2

structure PassResult where
  thrown : Option String
  completed : List String
  anyJobRun : Bool
  st : RunState
deriving Repr, DecidableEq

/-- One full pass of the scheduling loop over the declared job names:
completed jobs are skipped, jobs with unmet dependencies are skipped,
every other job has its matrix expanded and its instances run, and is
then added to the completed set; a thrown error stops the pass. -/
def runPass (O : SchedOracle) (wf : Workflow) (isDryRun : Bool)
    (workingDir : String) (wfW : Option String) :
    List String → List String → Bool → RunState → PassResult
  | [], completed, anyRun, st => ⟨none, completed, anyRun, st⟩
  | jobName :: restNames, completed, anyRun, st =>
    if completed.contains jobName then
      runPass O wf isDryRun workingDir wfW restNames completed anyRun st
    else
      match aGet wf.jobs jobName with
      | none =>
        -- unreachable: the scanned names are the keys of the job map
        runPass O wf isDryRun workingDir wfW restNames completed anyRun st
      | some job =>
        if ¬areDependenciesMet job completed then
          runPass O wf isDryRun workingDir wfW restNames completed anyRun st
        else
          match job.strategyMatrix with
          | some matrix =>
            let rm := resolveMatrixLoop O.jparse O.user wf matrix [] st.rs
            let st1 := { st with rs := rm.2 }
            let combos := generateCombinations rm.1 (matrix.map (·.1)) []
            let mi := runMatrixInstances O wf isDryRun workingDir wfW
              jobName job completed combos anyRun st1
            match mi.1 with
            | some msg => ⟨some msg, completed, mi.2.1, mi.2.2⟩
            | none =>
              runPass O wf isDryRun workingDir wfW restNames
                (completed ++ [jobName]) mi.2.1 mi.2.2
          | none =>
            let ri := runJobInstance O wf isDryRun workingDir wfW jobName
              job none (recordStart st jobName completed)
            match ri.1 with
            | some msg => ⟨some msg, completed, anyRun, ri.2⟩
            | none =>
              runPass O wf isDryRun workingDir wfW restNames
                (completed ++ [jobName]) true ri.2

theorem runPass_completed_mono (O : SchedOracle) (wf : Workflow)
    (isDryRun : Bool) (workingDir : String) (wfW : Option String) :
    ∀ (names completed : List String) (anyRun : Bool) (st : RunState),
      completed.length ≤
        (runPass O wf isDryRun workingDir wfW names completed anyRun
          st).completed.length := by
  intro names
  induction names with
  | nil => intro completed anyRun st; simp [runPass]
  | cons jobName rest ih =>
    intro completed anyRun st
    unfold runPass
    split
    · exact ih completed anyRun st
    · split
      · exact ih completed anyRun st
      · split
        · exact ih completed anyRun st
        · split
          · dsimp only
            split
            · simp
            · refine le_trans ?_ (ih (completed ++ [jobName]) _ _)
              simp
          · dsimp only
            split
            · simp
            · refine le_trans ?_ (ih (completed ++ [jobName]) _ _)
              simp

theorem runPass_progress (O : SchedOracle) (wf : Workflow)
    (isDryRun : Bool) (workingDir : String) (wfW : Option String) :
    ∀ (names completed : List String) (anyRun : Bool) (st : RunState),
      (runPass O wf isDryRun workingDir wfW names completed anyRun
        st).thrown = none →
      (runPass O wf isDryRun workingDir wfW names completed anyRun
        st).anyJobRun = true →
      anyRun = true ∨
        completed.length + 1 ≤
          (runPass O wf isDryRun workingDir wfW names completed anyRun
            st).completed.length := by
  intro names
  induction names with
  | nil =>
    intro completed anyRun st _ h
    simp [runPass] at h
    simp [h]
  | cons jobName rest ih =>
    intro completed anyRun st
    unfold runPass
    split
    · exact ih completed anyRun st
    · split
      · exact ih completed anyRun st
      · split
        · exact ih completed anyRun st
        · split
          · dsimp only
            split
            · intro hth _
              simp at hth
            · intro _ _
              right
              refine le_trans ?_
                (runPass_completed_mono O wf isDryRun workingDir wfW rest
                  (completed ++ [jobName]) _ _)
              simp
          · dsimp only
            split
            · intro hth _
              simp at hth
            · intro _ _
              right
              refine le_trans ?_
                (runPass_completed_mono O wf isDryRun workingDir wfW rest
                  (completed ++ [jobName]) _ _)
              simp

structure LoopResult where
  thrown : Option String
  stuck : Option (List String)
  completed : List String
  st : RunState
deriving Repr, DecidableEq

/-- The main scheduling loop: while jobs remain, run a pass; a pass in
which no job ran ends the loop with a warning naming the remaining jobs
(the deadlock soft stop); a thrown error propagates.  Termination is by
the measure `jobNames.length - completed.length`, which the progress
lemma shows decreases on every continuing iteration. -/
def runLoop (O : SchedOracle) (wf : Workflow) (isDryRun : Bool)
    (workingDir : String) (wfW : Option String) (jobNames : List String)
    (completed : List String) (st : RunState) : LoopResult :=
  if completed.length < jobNames.length then
    let pr := runPass O wf isDryRun workingDir wfW jobNames completed
      false st
    if hth : pr.thrown = none then
      if hrun : pr.anyJobRun then
        runLoop O wf isDryRun workingDir wfW jobNames pr.completed pr.st
      else
        ⟨none, some (jobNames.filter (fun n => ¬ pr.completed.contains n)),
          pr.completed, pr.st⟩
    else ⟨pr.thrown, none, pr.completed, pr.st⟩
  else ⟨none, none, completed, st⟩
termination_by jobNames.length - completed.length
decreasing_by
  have hm := runPass_progress O wf isDryRun workingDir wfW jobNames
    completed false st hth hrun
  simp only [Bool.false_eq_true, false_or] at hm
  omega

structure WorkflowOutcome where
  thrown : Option String
  stuck : Option (List String)
  completed : List String
  st : RunState
deriving Repr, DecidableEq

/-- `runWorkflow`: resolve the workflow-level default working directory,
then drive the dependency loop over the declared job names.  The ghost
`startTrace` inside the state records each instance start together with
the completed set at that moment; `thrown` carries the error that unwound
to the caller (user quit or terraform failure), `stuck` the deadlock
warning's job list. -/
def runWorkflow (O : SchedOracle) (wf : Workflow) (isDryRun : Bool)
    (workingDir : String) (st0 : RunState) : WorkflowOutcome :=
  let ww : Option String × RunState :=
    match wf.defaultsRunWorkingDirectory with
    | some raw =>
      let r := resolveVariablesInCommand (hostJp O) O.user wf raw
        "workflow-defaults" "" st0.rs none
      (some r.1, { st0 with rs := r.2 })
    | none => (none, st0)
  let jobNames := wf.jobs.map (·.1)
  if jobNames.isEmpty then ⟨none, none, [], ww.2⟩
  else
    let lr := runLoop O wf isDryRun workingDir ww.1 jobNames [] ww.2
    ⟨lr.thrown, lr.stuck, lr.completed, lr.st⟩

/-- A fresh run state over a fresh context. -/
def initialRunState : RunState :=
  ⟨⟨createWorkflowContext none, []⟩, 0, 0, 0, 0, false, false, [], []⟩

/-- The free-text prompt shown for an environment variable the resolver
could not take from `workflow.env`. -/
def envPrompt (name : String) : Prompt :=
  .textInput ("Enter value for environment variable " ++ sq ++ name ++ sq)
    (some "value")

/-- The free-text prompt of the uncached matrix fallback of
`resolveVariablesInCommand`. -/
def matrixPrompt (expression : String) : Prompt :=
  .textInput ("Enter value for matrix variable " ++ sq ++ expression ++ sq)
    (some "matrix-value")

/-- Whether the `needs.<job>.outputs.<name>` capture of an expression
names a job output recorded in the context — the guard of the one return
of `resolveGitHubExpression` that yields a value without caching it. -/
def needsOutputFound (ctx : WorkflowContext) (expression : String) : Bool :=
  match needsOutputsCapture expression.data with
  | some (jobName, outputName) =>
    (match aGet ctx.jobOutputs jobName with
     | some jm => (aGet jm outputName).isSome
     | none => false)
  | none => false

/-- Modelled from the spec's words, for comparison with the code's
`generateCombinations`: the cartesian product of the axis value lists, one
binding set per combination, axis keys in declared order, earlier axes
varying slower. -/
def specCartesianProduct : List (String × List JsonVal) → List (AMap JsonVal)
  | [] => [[]]
  | (key, values) :: rest =>
    values.flatMap (fun v =>
      (specCartesianProduct rest).map (fun combo => (key, v) :: combo))

/-- A scheduler oracle whose confirmation answers follow a script (then
`yes`), with inert collaborators: every command succeeds with empty
output, every mock action succeeds without outputs, the terraform check
passes, JSON never parses, paths resolve by joining. -/
def mkConfirms (confirms : List ConfirmAnswer) : SchedOracle :=
  { user := fun i _ => "u" ++ toString i,
    confirm := fun i => confirms.getD i .yes,
    exec := fun _ => ⟨true, "", "", 0, ""⟩,
    action := fun _ => ⟨.success, none⟩,
    terraform := fun _ => .ok (),
    jparse := fun _ => none,
    presolve := fun a b => a ++ "/" ++ b }

/-- Two independent jobs: `j1` with a single run step, `j2` with none. -/
def wfTwo : Workflow :=
  { jobs := [
      ("j1", { steps := [{ name := some "s1", run := some "echo hi" }] }),
      ("j2", { steps := [] })] }

/-- `B` declared before `A`, needing `A`. -/
def wfBA : Workflow :=
  { jobs := [("B", { needs := some (.one "A") }), ("A", {})] }

/-- A dependency cycle between `A` and `B`. -/
def wfCycle : Workflow :=
  { jobs := [("A", { needs := some (.one "B") }),
             ("B", { needs := some (.one "A") })] }

/-- The end state of running `wfTwo` against confirmations
`[yes, quit, yes]`: the quit at `j1`'s command confirmation skips `j1`'s
remaining steps, after which `j2` still starts and succeeds. -/
def quitRunEndState : RunState :=
  ⟨⟨⟨[], [], [], none⟩, []⟩, 3, 0, 0, 0, false, false,
   [⟨"j1", .skipped, [⟨"s1", .skipped, some "echo hi"⟩]⟩,
    ⟨"j2", .success, []⟩],
   [("j1", []), ("j2", ["j1"])]⟩

/-- The state after the first pass over `wfBA` with all-yes answers:
only `A` has run. -/
def midBAState : RunState :=
  ⟨⟨⟨[], [], [], none⟩, []⟩, 1, 0, 0, 0, false, false,
   [⟨"A", .success, []⟩], [("A", [])]⟩

/-- The end state of running `wfBA` with all-yes answers: `A` ran in the
first pass, `B` in the second, each start recorded with the completed
set of that moment. -/
def baEndState : RunState :=
  ⟨⟨⟨[], [], [], none⟩, []⟩, 2, 0, 0, 0, false, false,
   [⟨"A", .success, []⟩, ⟨"B", .success, []⟩],
   [("A", []), ("B", ["A"])]⟩

/-! ## Claims -/

/-- C8: evaluating a condition that is a single built-in call yields
`always() → true`, `success() → true`, `failure() → false`,
`cancelled() → false`; `startsWith`/`endsWith`/`contains` compute the
string predicate when both arguments are strings (for example
`startsWith('refs/tags/v1', 'refs/tags/')` evaluates to `true`) and
return `false` whenever either argument is not a string. -/
theorem c8_builtin_condition_functions :
    (∀ (jp : String → Option String) (user : UserOracle) (wf : Workflow)
      (jobName : String) (s : RState),
      evaluateStepCondition jp user wf "always()" jobName s = (true, s) ∧
      evaluateStepCondition jp user wf "success()" jobName s = (true, s) ∧
      evaluateStepCondition jp user wf "failure()" jobName s = (false, s) ∧
      evaluateStepCondition jp user wf "cancelled()" jobName s =
        (false, s) ∧
      evaluateStepCondition jp user wf
        ("startsWith(" ++ sq ++ "refs/tags/v1" ++ sq ++ ", " ++ sq ++
          "refs/tags/" ++ sq ++ ")") jobName s = (true, s)) ∧
    (∀ x y : String,
      jsStartsWith (.str x) (.str y) = .boolean (strStartsWith x y) ∧
      jsEndsWith (.str x) (.str y) = .boolean (strEndsWith x y) ∧
      jsContains (.str x) (.str y) = .boolean (strIncludes x y)) ∧
    (∀ a b : JSVal,
      (∀ x, a ≠ JSVal.str x) ∨ (∀ y, b ≠ JSVal.str y) →
      jsStartsWith a b = .boolean false ∧
      jsEndsWith a b = .boolean false ∧
      jsContains a b = .boolean false) := by
  refine ⟨fun jp user wf jobName s => ⟨rfl, rfl, rfl, rfl, rfl⟩,
    fun x y => ⟨rfl, rfl, rfl⟩, fun a b h => ?_⟩
  cases a <;> cases b <;>
    simp [jsStartsWith, jsEndsWith, jsContains] <;>
    rcases h with h | h <;> simp_all

/-- C8 witness: the built-in guards applied at a non-string argument. -/
theorem c8_witness :
    ((∀ x, JSVal.num 3 ≠ JSVal.str x) ∨ (∀ y, JSVal.str "a" ≠ JSVal.str y))
    ∧ jsStartsWith (.num 3) (.str "a") = .boolean false := by
  have h := c8_builtin_condition_functions.2.2 (.num 3) (.str "a")
    (Or.inl (fun x => by simp))
  exact ⟨Or.inl (fun x => by simp), h.1⟩

theorem replaceRefsOrFail_none (outputs : AMap (AMap String)) :
    ∀ (refs : List (String × String × String)) (cond : String),
      (∃ r ∈ refs,
        (aGet outputs r.2.1).bind (fun m => aGet m r.2.2) = none) →
      replaceRefsOrFail outputs refs cond = none := by
  intro refs
  induction refs with
  | nil => intro cond h; simp at h
  | cons r rest ih =>
    intro cond h
    obtain ⟨w, hw, hmiss⟩ := h
    rcases List.mem_cons.mp hw with rfl | hwrest
    · obtain ⟨mt, rn, outn⟩ := w
      unfold replaceRefsOrFail
      match hro : aGet outputs rn with
      | none => rfl
      | some om =>
        rw [hro] at hmiss
        simp only [Option.some_bind] at hmiss
        dsimp only
        match hoo : aGet om outn with
        | none => rfl
        | some v => rw [hoo] at hmiss; simp at hmiss
    · obtain ⟨mt, rn, outn⟩ := r
      unfold replaceRefsOrFail
      match hro : aGet outputs rn with
      | none => rfl
      | some om =>
        dsimp only
        match hoo : aGet om outn with
        | none => rfl
        | some v =>
          dsimp only
          exact ih _ ⟨w, hwrest, hmiss⟩

/-- C4: condition evaluation is fail-closed and total.  A job condition
referencing a `needs.<job>.outputs.<name>` that is not recorded (or a
step condition with an unrecorded `steps.<id>.outputs.<name>`) evaluates
to `false` with the context untouched; and once the rewriting pipeline
produces a string on which the modelled evaluation errors, the catch
turns the condition into `false` — both evaluators are total Lean
functions into `Bool`, so no exception can reach the caller. -/
theorem c4_condition_fail_closed :
    (∀ (jp : String → Option String) (user : UserOracle) (wf : Workflow)
      (cond : String) (s : RState), cond ≠ "" →
      (∃ r ∈ findNeedsOutputRefs cond.data,
        (aGet s.ctx.jobOutputs r.2.1).bind (fun m => aGet m r.2.2) = none) →
      evaluateJobCondition jp user wf cond s = (false, s)) ∧
    (∀ (jp : String → Option String) (user : UserOracle) (wf : Workflow)
      (cond jobName : String) (s : RState), cond ≠ "" →
      (∃ r ∈ findStepOutputRefs cond.data,
        (aGet ((aGet s.ctx.stepOutputs jobName).getD []) r.2.1).bind
          (fun m => aGet m r.2.2) = none) →
      evaluateStepCondition jp user wf cond jobName s = (false, s)) ∧
    (∀ (jp : String → Option String) (user : UserOracle) (wf : Workflow)
      (cond : String) (s : RState) (c : String) (s2 : RState) (e : String),
      cond ≠ "" →
      rewriteJobCondition jp user wf cond s = some (c, s2) →
      jsEvalString c = .error e →
      evaluateJobCondition jp user wf cond s = (false, s2)) ∧
    (∀ (jp : String → Option String) (user : UserOracle) (wf : Workflow)
      (cond jobName : String) (s : RState) (c : String) (s2 : RState)
      (e : String), cond ≠ "" →
      rewriteStepCondition jp user wf cond jobName s = some (c, s2) →
      jsEvalString c = .error e →
      evaluateStepCondition jp user wf cond jobName s = (false, s2)) := by
  refine ⟨?_, ?_, ?_, ?_⟩
  · intro jp user wf cond s hne hmiss
    have h := replaceRefsOrFail_none s.ctx.jobOutputs
      (findNeedsOutputRefs cond.data) cond hmiss
    simp [evaluateJobCondition, rewriteJobCondition, hne, h]
  · intro jp user wf cond jobName s hne hmiss
    have h := replaceRefsOrFail_none ((aGet s.ctx.stepOutputs jobName).getD [])
      (findStepOutputRefs cond.data) cond hmiss
    simp [evaluateStepCondition, rewriteStepCondition, hne, h]
  · intro jp user wf cond s c s2 e hne hrw herr
    simp [evaluateJobCondition, hne, hrw, evalRewrittenCondition, herr]
  · intro jp user wf cond jobName s c s2 e hne hrw herr
    simp [evaluateStepCondition, hne, hrw, evalRewrittenCondition, herr]

/-- C4 witness: the spec's own instance — a condition referencing an
unrecorded job output over an empty context evaluates to `false`. -/
theorem c4_witness :
    ("needs.missing.outputs.foo == \"bar\"" ≠ "" ∧
      (∃ r ∈ findNeedsOutputRefs
          "needs.missing.outputs.foo == \"bar\"".data,
        (aGet (⟨createWorkflowContext none, []⟩ : RState).ctx.jobOutputs
          r.2.1).bind (fun m => aGet m r.2.2) = none)) ∧
    evaluateJobCondition (fun _ => none) (fun _ _ => "")
      {} "needs.missing.outputs.foo == \"bar\""
      ⟨createWorkflowContext none, []⟩ =
      (false, ⟨createWorkflowContext none, []⟩) := by
  refine ⟨⟨by decide, ⟨("needs.missing.outputs.foo ", "missing", "foo"),
    by decide, by decide⟩⟩, ?_⟩
  exact c4_condition_fail_closed.1 (fun _ => none) (fun _ _ => "") {}
    "needs.missing.outputs.foo == \"bar\"" ⟨createWorkflowContext none, []⟩
    (by decide)
    ⟨("needs.missing.outputs.foo ", "missing", "foo"), by decide, by decide⟩

/-- C9 (counterexample): a workflow whose `env` maps `FOO` to the empty
string.  The key is present in `workflow.env`, yet resolving `env.FOO`
prompts the user (the source tests the looked-up value for JS truthiness,
not the key for presence) and returns the typed answer instead of the
mapped value. -/
theorem c9_counterexample :
    (resolveGitHubExpression (fun _ => none) (fun _ _ => "typed")
      { env := [("FOO", "")] } "env.FOO"
      ⟨createWorkflowContext none, []⟩).1 = "typed" ∧
    (resolveGitHubExpression (fun _ => none) (fun _ _ => "typed")
      { env := [("FOO", "")] } "env.FOO"
      ⟨createWorkflowContext none, []⟩).2.promptLog =
      [envPrompt "FOO"] := by
  constructor
  · decide
  · decide

/-- C9 (amended): for an uncached `env.<name>` expression (one reaching
the `env.` branch), when `workflow.env` maps the name to a non-empty
value, that value is returned directly and cached, with no prompt; when
the mapping is absent — or present but equal to the empty string, which
the source's truthiness test conflates with absence — the resolver falls
back to a free-text prompt seeded with `value` and caches the answer. -/
theorem c9_env_resolution (jp : String → Option String) (user : UserOracle)
    (wf : Workflow) (expression name : String) (s : RState)
    (hmiss : aGet s.ctx.resolvedVariables expression = none)
    (hmenu : aGet githubContextOptions expression = none)
    (hni : strStartsWith expression "github.event.inputs." = false)
    (hns : strStartsWith expression "secrets." = false)
    (henv : strStartsWith expression "env." = true)
    (hkey : jsReplaceFirst expression "env." "" = name) :
    (∀ v, aGet wf.env name = some v → v ≠ "" →
      resolveGitHubExpression jp user wf expression s =
        (v, setResolved s expression v)) ∧
    (aGet wf.env name = none ∨ aGet wf.env name = some "" →
      resolveGitHubExpression jp user wf expression s =
        (user s.promptLog.length (envPrompt name),
         setResolved { s with promptLog := s.promptLog ++ [envPrompt name] }
           expression (user s.promptLog.length (envPrompt name)))) := by
  subst hkey
  constructor
  · intro v hv hne
    simp [resolveGitHubExpression, resolveGitHubExpressionF, hmiss, hmenu,
      hni, hns, henv, hv, hne]
  · intro h
    rcases h with h | h <;>
      simp [resolveGitHubExpression, resolveGitHubExpressionF, hmiss, hmenu,
        hni, hns, henv, h, askUser, envPrompt]

/-- C9 witness: a workflow mapping `FOO` to `v1` resolves `env.FOO` to
`v1`, cached, with no prompt. -/
theorem c9_witness :
    (aGet (⟨createWorkflowContext none, []⟩ : RState).ctx.resolvedVariables
        "env.FOO" = none ∧
      aGet githubContextOptions "env.FOO" = none ∧
      strStartsWith "env.FOO" "github.event.inputs." = false ∧
      strStartsWith "env.FOO" "secrets." = false ∧
      strStartsWith "env.FOO" "env." = true ∧
      jsReplaceFirst "env.FOO" "env." "" = "FOO" ∧
      aGet ({ env := [("FOO", "v1")] } : Workflow).env "FOO" = some "v1" ∧
      "v1" ≠ "") ∧
    resolveGitHubExpression (fun _ => none) (fun _ _ => "u")
      { env := [("FOO", "v1")] } "env.FOO" ⟨createWorkflowContext none, []⟩ =
      ("v1", setResolved ⟨createWorkflowContext none, []⟩ "env.FOO" "v1") :=
  ⟨⟨by decide, by decide, by decide, by decide, by decide, by decide,
    by decide, by decide⟩,
   (c9_env_resolution (fun _ => none) (fun _ _ => "u")
      { env := [("FOO", "v1")] } "env.FOO" "FOO"
      ⟨createWorkflowContext none, []⟩ (by decide) (by decide) (by decide)
      (by decide) (by decide) (by decide)).1 "v1" (by decide) (by decide)⟩

/-- C10: in `resolveVariablesInCommand`, a `matrix.<key>` expression whose
key is not bound in the supplied bindings map free-text-prompts the user
with placeholder `matrix-value` and leaves `context.resolvedVariables`
untouched (the returned state differs from the input state only by the
logged prompt); and — uncached — each further occurrence of the same
`matrix.<key>` text prompts afresh: a command containing the same unbound
`matrix.k` twice produces two prompts, each answer spliced into its own
occurrence. -/
theorem c10_matrix_fallback_uncached :
    (∀ (jp : String → Option String) (user : UserOracle) (wf : Workflow)
      (stepId jobName : String) (m : AMap JsonVal) (expression key : String)
      (s : RState),
      strStartsWith expression "matrix." = true →
      jsReplaceFirst expression "matrix." "" = key →
      aGet m key = none →
      resolveOneInCommand jp user wf stepId jobName (some m) expression s =
        (user s.promptLog.length (matrixPrompt expression),
         { s with promptLog := s.promptLog ++ [matrixPrompt expression] })) ∧
    resolveVariablesInCommand (fun _ => none)
      (fun i _ => if i = 0 then "a" else "b") {}
      "run $\x7b\x7b matrix.k \x7d\x7d $\x7b\x7b matrix.k \x7d\x7d"
      "s1" "j1" ⟨createWorkflowContext none, []⟩ (some []) =
      ("run a b",
       ⟨createWorkflowContext none,
        [matrixPrompt "matrix.k", matrixPrompt "matrix.k"]⟩) := by
  constructor
  · intro jp user wf stepId jobName m expression key s h1 h2 h3
    subst h2
    simp [resolveOneInCommand, h1, h3, askUser, matrixPrompt]
  · decide

/-- C10 witness: the unbound-key fallback applied at an empty bindings
map. -/
theorem c10_witness :
    (strStartsWith "matrix.k" "matrix." = true ∧
      jsReplaceFirst "matrix.k" "matrix." "" = "k" ∧
      aGet ([] : AMap JsonVal) "k" = (none : Option JsonVal)) ∧
    resolveOneInCommand (fun _ => none) (fun _ _ => "mv") {} "s1" "j1"
      (some []) "matrix.k" ⟨createWorkflowContext none, []⟩ =
      ("mv", ⟨createWorkflowContext none, [matrixPrompt "matrix.k"]⟩) :=
  ⟨⟨by decide, by decide, rfl⟩,
   (c10_matrix_fallback_uncached.1 (fun _ => none) (fun _ _ => "mv") {}
      "s1" "j1" [] "matrix.k" "k" ⟨createWorkflowContext none, []⟩
      (by decide) (by decide) rfl).trans (by decide)⟩

/-- C6 (counterexample): a recorded job output `v.files = x` makes
`resolveGitHubExpression` return `x` for `needs.v.outputs.files` with the
state completely unchanged — this value-producing dispatch branch stores
nothing in `context.resolvedVariables` under the original key. -/
theorem c6_counterexample :
    resolveGitHubExpression (fun _ => none) (fun _ _ => "u") {}
      "needs.v.outputs.files"
      ⟨⟨[], [], [("v", [("files", "x")])], none⟩, []⟩ =
      ("x", ⟨⟨[], [], [("v", [("files", "x")])], none⟩, []⟩) ∧
    aGet (⟨⟨[], [], [("v", [("files", "x")])], none⟩,
        []⟩ : RState).ctx.resolvedVariables
      "needs.v.outputs.files" = none := by
  constructor
  · decide
  · rfl

theorem needsOrFallback_caching (user : UserOracle) (expression : String)
    (s : RState) :
    aGet (resolveNeedsOrFallback user expression
        s).2.ctx.resolvedVariables expression =
      some (resolveNeedsOrFallback user expression s).1 ∨
    needsOutputFound s.ctx expression = true := by
  unfold resolveNeedsOrFallback
  dsimp only
  split
  · split
    · split
      · split
        · right; simp_all [needsOutputFound]
        · left; simp [askUser, setResolved, aGet_aSet_self]
      · left; simp [askUser, setResolved, aGet_aSet_self]
    · left; simp [askUser, setResolved, aGet_aSet_self]
  · left; simp [askUser, setResolved, aGet_aSet_self]

/-- C6 (amended): every dispatch branch of `resolveGitHubExpression`
stores the resolved value into `context.resolvedVariables` under the
original expression key before returning it (menu-backed variables,
`github.event.inputs.*`, `secrets.*`, `env.*`, `github.ref_name`/`sha`/
`workspace`, the needs-output prompt, the free-text fallback — and a
cache hit trivially returns the stored value), with exactly two
exceptions, which return without caching under the original key: the
`fromJSON(<inner>)` wrapper (only the inner expression's own resolution
is cached) and the branch returning an already-recorded
`needs.<job>.outputs.<name>` job output. -/
theorem c6_resolution_caching (jp : String → Option String)
    (user : UserOracle) (wf : Workflow) (expression : String) (s : RState) :
    aGet (resolveGitHubExpression jp user wf expression
        s).2.ctx.resolvedVariables expression =
      some (resolveGitHubExpression jp user wf expression s).1 ∨
    strIncludes expression "fromJSON(" = true ∨
    needsOutputFound s.ctx expression = true := by
  have main : ∀ (fuel : Nat) (e : String) (s : RState),
      aGet (resolveGitHubExpressionF jp user wf (fuel + 1) e
          s).2.ctx.resolvedVariables e =
        some (resolveGitHubExpressionF jp user wf (fuel + 1) e s).1 ∨
      strIncludes e "fromJSON(" = true ∨
      needsOutputFound s.ctx e = true := by
    intro fuel e s
    unfold resolveGitHubExpressionF
    split
    · left; simp_all
    · split
      · left; simp [askUser, setResolved, aGet_aSet_self]
      · split
        · left; simp [askUser, setResolved, aGet_aSet_self]
        · split
          · left; simp [askUser, setResolved, aGet_aSet_self]
          · split
            · dsimp only
              split
              · split
                · left; simp [askUser, setResolved, aGet_aSet_self]
                · left; simp [setResolved, aGet_aSet_self]
              · left; simp [askUser, setResolved, aGet_aSet_self]
            · split
              · left; simp [askUser, setResolved, aGet_aSet_self]
              · split
                · left; simp [askUser, setResolved, aGet_aSet_self]
                · split
                  · left; simp [askUser, setResolved, aGet_aSet_self]
                  · split
                    · rename_i hguard
                      right; left
                      simp only [Bool.and_eq_true] at hguard
                      exact hguard.1
                    · rcases needsOrFallback_caching user e s with h | h
                      · left; exact h
                      · right; right; exact h
  have h := main expression.length expression s
  simpa [resolveGitHubExpression] using h

theorem needsOrFallback_cache_ne (user : UserOracle) (e : String)
    (s : RState) (k : String) (h : e ≠ k) :
    aGet (resolveNeedsOrFallback user e s).2.ctx.resolvedVariables k =
      aGet s.ctx.resolvedVariables k := by
  have hx := fun (m : AMap String) (v : String) => aGet_aSet_ne m e k v h
  unfold resolveNeedsOrFallback
  dsimp only
  split
  · split
    · split
      · split
        · rfl
        · simp [askUser, setResolved, hx]
      · simp [askUser, setResolved, hx]
    · simp [askUser, setResolved, hx]
  · simp [askUser, setResolved, hx]

/-- Resolving an expression never writes a cache entry whose key is
longer than the expression itself (the keys written are the expression
and, through `fromJSON`, its strictly shorter inner expressions). -/
theorem resolve_cache_high (jp : String → Option String)
    (user : UserOracle) (wf : Workflow) : ∀ (fuel : Nat) (e : String)
    (s : RState) (k : String), e.length < k.length →
    aGet (resolveGitHubExpressionF jp user wf fuel e
        s).2.ctx.resolvedVariables k = aGet s.ctx.resolvedVariables k := by
  intro fuel
  induction fuel with
  | zero => intro e s k h; rfl
  | succ fuel ih =>
    intro e s k h
    have hne : e ≠ k := fun heq => absurd (heq ▸ h) (lt_irrefl _)
    have hx := fun (m : AMap String) (v : String) => aGet_aSet_ne m e k v hne
    unfold resolveGitHubExpressionF
    split
    · rfl
    · split
      · simp [askUser, setResolved, hx]
      · split
        · simp [askUser, setResolved, hx]
        · split
          · simp [askUser, setResolved, hx]
          · split
            · dsimp only
              split
              · split
                · simp [askUser, setResolved, hx]
                · simp [setResolved, hx]
              · simp [askUser, setResolved, hx]
            · split
              · simp [askUser, setResolved, hx]
              · split
                · simp [askUser, setResolved, hx]
                · split
                  · simp [askUser, setResolved, hx]
                  · split
                    · split
                      · rename_i innerChars hcap
                        dsimp only
                        have h1 := fromJSONCapture_length_lt e.data
                          innerChars hcap
                        have h2 : (String.mk innerChars).length =
                            innerChars.length := rfl
                        have h3 : e.length = e.data.length := rfl
                        have hih := ih (String.mk innerChars) s k (by omega)
                        split
                        · exact hih
                        · exact hih
                      · exact needsOrFallback_cache_ne user e s k hne
                    · exact needsOrFallback_cache_ne user e s k hne

/-- A cached expression is returned from the cache with the state
untouched. -/
theorem resolve_hit (jp : String → Option String) (user : UserOracle)
    (wf : Workflow) (fuel : Nat) (e : String) (s : RState) (v : String)
    (h : aGet s.ctx.resolvedVariables e = some v) :
    resolveGitHubExpressionF jp user wf (fuel + 1) e s = (v, s) := by
  unfold resolveGitHubExpressionF
  simp [h]

/-- After `resolveNeedsOrFallback`, either the expression is cached with
the returned value, or the state is exactly the input state (the found
job-output return). -/
theorem needsOrFallback_post (user : UserOracle) (e : String) (s : RState) :
    aGet (resolveNeedsOrFallback user e s).2.ctx.resolvedVariables e =
      some (resolveNeedsOrFallback user e s).1 ∨
    resolveNeedsOrFallback user e s =
      ((resolveNeedsOrFallback user e s).1, s) := by
  unfold resolveNeedsOrFallback
  dsimp only
  split
  · split
    · split
      · split
        · right; rfl
        · left; simp [askUser, setResolved, aGet_aSet_self]
      · left; simp [askUser, setResolved, aGet_aSet_self]
    · left; simp [askUser, setResolved, aGet_aSet_self]
  · left; simp [askUser, setResolved, aGet_aSet_self]

/-- The reduction of the resolver on an uncached expression that reaches
the `fromJSON` branch with a successful capture. -/
theorem resolve_fromJSON_step (jp : String → Option String)
    (user : UserOracle) (wf : Workflow) (fuel : Nat) (e : String)
    (s : RState)
    (hc : aGet s.ctx.resolvedVariables e = none)
    (hmenu : aGet githubContextOptions e = none)
    (hg1 : strStartsWith e "github.event.inputs." = false)
    (hg2 : strStartsWith e "secrets." = false)
    (hg3 : strStartsWith e "env." = false)
    (hg4 : strStartsWith e "github.ref_name" = false)
    (hg5 : strStartsWith e "github.sha" = false)
    (hg6 : strStartsWith e "github.workspace" = false)
    (hguard : (strIncludes e "fromJSON(" && strIncludes e ")") = true)
    (innerChars : List Char)
    (hcap : fromJSONCapture e.data = some innerChars) :
    resolveGitHubExpressionF jp user wf (fuel + 1) e s =
      (match jp (resolveGitHubExpressionF jp user wf fuel
          (String.mk innerChars) s).1 with
       | some rr => (rr, (resolveGitHubExpressionF jp user wf fuel
           (String.mk innerChars) s).2)
       | none => resolveGitHubExpressionF jp user wf fuel
           (String.mk innerChars) s) := by
  conv_lhs => unfold resolveGitHubExpressionF
  simp [hc, hmenu, hg1, hg2, hg3, hg4, hg5, hg6, hguard, hcap]

/-- Resolution is idempotent: re-resolving the expression in the state the
first resolution produced returns the same value and leaves that state
unchanged — in particular the second resolution prompts for nothing. -/
theorem resolve_idemF (jp : String → Option String) (user : UserOracle)
    (wf : Workflow) : ∀ (fuel : Nat) (e : String) (s : RState),
    resolveGitHubExpressionF jp user wf fuel e
        (resolveGitHubExpressionF jp user wf fuel e s).2 =
      ((resolveGitHubExpressionF jp user wf fuel e s).1,
       (resolveGitHubExpressionF jp user wf fuel e s).2) := by
  intro fuel
  induction fuel with
  | zero => intro e s; rfl
  | succ fuel ih =>
    intro e s
    rcases hfirst : resolveGitHubExpressionF jp user wf (fuel + 1) e s
      with ⟨v, s2⟩
    dsimp only
    unfold resolveGitHubExpressionF at hfirst
    split at hfirst
    · injection hfirst with h1 h2
      subst h1; subst h2
      exact resolve_hit jp user wf fuel e _ _ (by assumption)
    · split at hfirst
      · dsimp only at hfirst
        injection hfirst with h1 h2
        subst h1; subst h2
        exact resolve_hit jp user wf fuel e _ _
          (by simp [askUser, setResolved, aGet_aSet_self])
      · split at hfirst
        · dsimp only at hfirst
          injection hfirst with h1 h2
          subst h1; subst h2
          exact resolve_hit jp user wf fuel e _ _
            (by simp [askUser, setResolved, aGet_aSet_self])
        · split at hfirst
          · dsimp only at hfirst
            injection hfirst with h1 h2
            subst h1; subst h2
            exact resolve_hit jp user wf fuel e _ _
              (by simp [askUser, setResolved, aGet_aSet_self])
          · split at hfirst
            · dsimp only at hfirst
              split at hfirst
              · split at hfirst
                · try dsimp only at hfirst
                  injection hfirst with h1 h2
                  subst h1; subst h2
                  exact resolve_hit jp user wf fuel e _ _
                    (by simp [askUser, setResolved, aGet_aSet_self])
                · injection hfirst with h1 h2
                  subst h1; subst h2
                  exact resolve_hit jp user wf fuel e _ _
                    (by simp [setResolved, aGet_aSet_self])
              · try dsimp only at hfirst
                injection hfirst with h1 h2
                subst h1; subst h2
                exact resolve_hit jp user wf fuel e _ _
                  (by simp [askUser, setResolved, aGet_aSet_self])
            · split at hfirst
              · dsimp only at hfirst
                injection hfirst with h1 h2
                subst h1; subst h2
                exact resolve_hit jp user wf fuel e _ _
                  (by simp [askUser, setResolved, aGet_aSet_self])
              · split at hfirst
                · dsimp only at hfirst
                  injection hfirst with h1 h2
                  subst h1; subst h2
                  exact resolve_hit jp user wf fuel e _ _
                    (by simp [askUser, setResolved, aGet_aSet_self])
                · split at hfirst
                  · dsimp only at hfirst
                    injection hfirst with h1 h2
                    subst h1; subst h2
                    exact resolve_hit jp user wf fuel e _ _
                      (by simp [askUser, setResolved, aGet_aSet_self])
                  · split at hfirst
                    · split at hfirst
                      · -- the fromJSON recursion
                        rename_i x0 hc x1 hmenu hg1 hg2 hg3 hg4 hg5 hg6
                          hguard x2 innerChars hcap
                        dsimp only at hfirst
                        have h1 := fromJSONCapture_length_lt e.data
                          innerChars hcap
                        have h2 : (String.mk innerChars).length =
                            innerChars.length := rfl
                        have h3 : e.length = e.data.length := rfl
                        have hkeep := resolve_cache_high jp user wf fuel
                          (String.mk innerChars) s e (by omega)
                        have hih := ih (String.mk innerChars) s
                        have hb1 : strStartsWith e "github.event.inputs." =
                            false := by simpa using hg1
                        have hb2 : strStartsWith e "secrets." = false := by
                          simpa using hg2
                        have hb3 : strStartsWith e "env." = false := by
                          simpa using hg3
                        have hb4 : strStartsWith e "github.ref_name" =
                            false := by simpa using hg4
                        have hb5 : strStartsWith e "github.sha" = false := by
                          simpa using hg5
                        have hb6 : strStartsWith e "github.workspace" =
                            false := by simpa using hg6
                        rcases hjp : jp (resolveGitHubExpressionF jp user wf
                            fuel (String.mk innerChars) s).1 with _ | rr
                        · rw [hjp] at hfirst
                          dsimp only at hfirst
                          rw [hfirst] at hkeep hih hjp
                          dsimp only at hkeep hih hjp
                          rw [resolve_fromJSON_step jp user wf fuel e s2
                            (hkeep.trans hc) hmenu hb1 hb2 hb3 hb4 hb5 hb6
                            hguard innerChars hcap]
                          rw [hih]
                          dsimp only
                          rw [hjp]
                        · rw [hjp] at hfirst
                          injection hfirst with hv hs
                          subst hv; subst hs
                          rw [resolve_fromJSON_step jp user wf fuel e _
                            (hkeep.trans hc) hmenu hb1 hb2 hb3 hb4 hb5 hb6
                            hguard innerChars hcap]
                          rw [hih]
                          dsimp only
                          rw [hjp]
                      · rename_i x0 hc x1 hmenu hg1 hg2 hg3 hg4 hg5 hg6
                          hguard x2 hcap
                        rcases needsOrFallback_post user e s with hpost | hpost
                        · rw [hfirst] at hpost
                          exact resolve_hit jp user wf fuel e s2 v hpost
                        · rw [hfirst] at hpost
                          dsimp only at hpost
                          injection hpost with hp1 hp2
                          subst hp2
                          unfold resolveGitHubExpressionF
                          simp [hc, hmenu, hg1, hg2, hg3, hg4, hg5, hg6,
                            hguard, hcap, hfirst]
                    · rename_i x0 hc x1 hmenu hg1 hg2 hg3 hg4 hg5 hg6 hguard
                      rcases needsOrFallback_post user e s with hpost | hpost
                      · rw [hfirst] at hpost
                        exact resolve_hit jp user wf fuel e s2 v hpost
                      · rw [hfirst] at hpost
                        dsimp only at hpost
                        injection hpost with hp1 hp2
                        subst hp2
                        unfold resolveGitHubExpressionF
                        simp [hc, hmenu, hg1, hg2, hg3, hg4, hg5, hg6,
                          hguard, hfirst]

/-- C3 (counterexample): one command resolution, same expression text
`matrix.v` twice, a supplied bindings map that does not bind `v`: the
matrix fallback path prompts once per occurrence — the identical prompt is
issued twice within one context — and the two resolutions of the same
expression text return different values (the user's two answers). -/
theorem c3_counterexample :
    resolveVariablesInCommand (fun _ => none)
      (fun i _ => if i = 0 then "first" else "second") {}
      "x $\x7b\x7b matrix.v \x7d\x7d y $\x7b\x7b matrix.v \x7d\x7d"
      "st" "jb" ⟨createWorkflowContext none, []⟩ (some []) =
      ("x first y second",
       ⟨createWorkflowContext none,
        [matrixPrompt "matrix.v", matrixPrompt "matrix.v"]⟩) := by
  decide

/-- C3 (amended): `resolveGitHubExpression` itself is memoized — an
expression already in `context.resolvedVariables` is returned from the
cache with the state untouched (no prompt), and re-resolving any
expression in the state its first resolution produced returns the same
value and leaves that state unchanged, so the direct resolver never
prompts twice for one expression text.  The guarantee does not extend to
the matrix-fallback and step-output paths of command resolution, which
prompt per occurrence (see the counterexample). -/
theorem c3_resolver_memoization (jp : String → Option String)
    (user : UserOracle) (wf : Workflow) (expression : String) (s : RState) :
    (∀ v, aGet s.ctx.resolvedVariables expression = some v →
      resolveGitHubExpression jp user wf expression s = (v, s)) ∧
    resolveGitHubExpression jp user wf expression
        (resolveGitHubExpression jp user wf expression s).2 =
      ((resolveGitHubExpression jp user wf expression s).1,
       (resolveGitHubExpression jp user wf expression s).2) := by
  constructor
  · intro v hv
    exact resolve_hit jp user wf expression.length expression s v hv
  · exact resolve_idemF jp user wf (expression.length + 1) expression s

/-- C3 witness: a cached expression is answered from the cache. -/
theorem c3_witness :
    aGet (setResolved ⟨createWorkflowContext none, []⟩ "env.X"
        "1").ctx.resolvedVariables "env.X" = some "1" ∧
    resolveGitHubExpression (fun _ => none) (fun _ _ => "u") {} "env.X"
      (setResolved ⟨createWorkflowContext none, []⟩ "env.X" "1") =
      ("1", setResolved ⟨createWorkflowContext none, []⟩ "env.X" "1") :=
  ⟨by decide,
   (c3_resolver_memoization (fun _ => none) (fun _ _ => "u") {} "env.X"
      (setResolved ⟨createWorkflowContext none, []⟩ "env.X" "1")).1 "1"
     (by decide)⟩

theorem flatMapCongr {α β : Type} (l : List α) (f g : α → List β)
    (h : ∀ a ∈ l, f a = g a) : l.flatMap f = l.flatMap g := by
  induction l with
  | nil => rfl
  | cons x xs ih =>
    simp only [List.flatMap_cons, h x (by simp),
      ih (fun a ha => h a (by simp [ha]))]

theorem mapFlatMap {α β γ : Type} (l : List α) (f : α → List β) (g : β → γ) :
    (l.flatMap f).map g = l.flatMap (fun a => (f a).map g) := by
  induction l with
  | nil => rfl
  | cons x xs ih => simp [List.flatMap_cons, ih]

theorem lengthFlatMapConst {α β : Type} (l : List α) (f : α → List β)
    (n : Nat) (h : ∀ a ∈ l, (f a).length = n) :
    (l.flatMap f).length = l.length * n := by
  induction l with
  | nil => simp
  | cons x xs ih =>
    have hx := h x (by simp)
    have ihx := ih (fun a ha => h a (by simp [ha]))
    simp only [List.flatMap_cons, List.length_append, List.length_cons, hx,
      ihx]
    ring

theorem flatMapSingle {α β : Type} (l : List α) (g : α → β) :
    l.flatMap (fun x => [g x]) = l.map g := by
  induction l with
  | nil => rfl
  | cons x xs ih => simp [List.flatMap_cons, ih]

theorem specCartesianProduct_length :
    ∀ axes : List (String × List JsonVal),
      (specCartesianProduct axes).length =
        (axes.map (fun p => p.2.length)).prod := by
  intro axes
  induction axes with
  | nil => rfl
  | cons a rest ih =>
    obtain ⟨key, values⟩ := a
    simp only [specCartesianProduct, List.map_cons, List.prod_cons]
    rw [lengthFlatMapConst values _ (specCartesianProduct rest).length
      (fun a _ => by simp)]
    rw [ih]

theorem aSet_append {α : Type} (m : AMap α) (k : String) (v : α)
    (h : aHas m k = false) : aSet m k v = m ++ [(k, v)] := by
  unfold aSet
  unfold aHas at h
  simp [h]

theorem aHas_append_single {α : Type} (m : AMap α) (k k' : String) (v : α) :
    aHas (m ++ [(k, v)]) k' = (aHas m k' || (k == k')) := by
  unfold aHas
  simp [List.any_append]

theorem aGet_axes_map : ∀ (axes : List (String × List JsonVal)),
    (axes.map Prod.fst).Nodup → ∀ p ∈ axes,
      aGet (axes.map (fun q => (q.1, JsonVal.arr q.2))) p.1 =
        some (.arr p.2) := by
  intro axes
  induction axes with
  | nil => intro _ p hp; simp at hp
  | cons a rest ih =>
    intro hnd p hp
    simp only [List.map_cons, List.nodup_cons] at hnd
    rcases List.mem_cons.mp hp with rfl | hmem
    · simp [aGet, List.find?]
    · have hne : (a.1 == p.1) = false := by
        refine beq_eq_false_iff_ne.mpr (fun heq => hnd.1 ?_)
        rw [heq]
        exact List.mem_map.mpr ⟨p, hmem, rfl⟩
      have ihp := ih hnd.2 p hmem
      simp only [aGet, List.map_cons, List.find?, hne] at ihp ⊢
      exact ihp

/-- `generateCombinations` computes the cartesian product: over axis keys
bound in the resolved matrix to array values, with no duplicate axis key
and no axis key already bound in the accumulator, the emitted binding
sets are exactly the reference cartesian product prefixed by the
accumulator. -/
theorem generateCombinations_cartesian (resolved : AMap JsonVal) :
    ∀ (axes : List (String × List JsonVal)) (current : AMap JsonVal),
      (∀ p ∈ axes, aGet resolved p.1 = some (.arr p.2)) →
      (∀ p ∈ axes, aHas current p.1 = false) →
      (axes.map Prod.fst).Nodup →
      generateCombinations resolved (axes.map Prod.fst) current =
        (specCartesianProduct axes).map (fun combo => current ++ combo) := by
  intro axes
  induction axes with
  | nil =>
    intro current _ _ _
    simp [generateCombinations, specCartesianProduct]
  | cons a rest ih =>
    obtain ⟨key, values⟩ := a
    intro current hres hcur hnd
    simp only [List.map_cons, List.nodup_cons] at hnd
    unfold generateCombinations
    simp only [List.map_cons]
    rw [show aGet resolved key = some (.arr values) from
      hres (key, values) (by simp)]
    dsimp only [Option.getD]
    simp only [specCartesianProduct]
    rw [mapFlatMap]
    refine flatMapCongr values _ _ (fun value hval => ?_)
    rw [aSet_append current key value (hcur (key, values) (by simp))]
    rw [ih (current ++ [(key, value)])
      (fun p hp => hres p (by simp [hp]))
      (fun p hp => by
        rw [aHas_append_single]
        have h3 := hcur p (by simp [hp])
        have h4 : (key == p.1) = false := by
          refine beq_eq_false_iff_ne.mpr (fun heq => hnd.1 ?_)
          rw [heq]
          exact List.mem_map.mpr ⟨p, hp, rfl⟩
        simp [h3, h4])
      hnd.2]
    simp [List.map_map, Function.comp, List.append_assoc]

/-- C5 (counterexample): an include-form matrix is not used as-is — the
`include` key is treated as an ordinary axis, so each listed combination
object is wrapped into a single binding `include ↦ object` instead of
becoming the binding set itself. -/
theorem c5_counterexample :
    expandMatrix [("include",
        .arr [.obj [("x", .num 1)], .obj [("x", .num 2)]])] =
      [[("include", .obj [("x", .num 1)])],
       [("include", .obj [("x", .num 2)])]] ∧
    expandMatrix [("include",
        .arr [.obj [("x", .num 1)], .obj [("x", .num 2)]])] ≠
      [[("x", .num 1)], [("x", .num 2)]] := by
  constructor
  · rfl
  · intro h
    have h1 : expandMatrix [("include",
        .arr [.obj [("x", .num 1)], .obj [("x", .num 2)]])] =
      [[("include", .obj [("x", .num 1)])],
       [("include", .obj [("x", .num 2)])]] := rfl
    rw [h1] at h
    have h2 := congrArg (fun l => l.map (fun c => c.map Prod.fst)) h
    simp at h2

/-- C5 (amended): for an axis-form matrix with pairwise distinct keys
mapping to value lists, expansion is exactly the cartesian product of the
axis values in declared order (hence as many binding sets as the product
of the axis lengths; the spec's `{os: [a,b], ver: [1,2]}` example yields
its 4 cross-product binding sets); an include-form matrix is expanded
through the same axis machinery, producing one binding set per listed
entry, each of the form `[include ↦ entry]` rather than the entry
itself. -/
theorem c5_matrix_expansion :
    (∀ axes : List (String × List JsonVal), (axes.map Prod.fst).Nodup →
      expandMatrix (axes.map (fun p => (p.1, JsonVal.arr p.2))) =
        specCartesianProduct axes ∧
      (expandMatrix (axes.map (fun p => (p.1, JsonVal.arr p.2)))).length =
        (axes.map (fun p => p.2.length)).prod) ∧
    (∀ entries : List JsonVal,
      expandMatrix [("include", JsonVal.arr entries)] =
        entries.map (fun e => [("include", e)])) ∧
    expandMatrix [("os", .arr [.str "a", .str "b"]),
        ("ver", .arr [.num 1, .num 2])] =
      [[("os", .str "a"), ("ver", .num 1)],
       [("os", .str "a"), ("ver", .num 2)],
       [("os", .str "b"), ("ver", .num 1)],
       [("os", .str "b"), ("ver", .num 2)]] := by
  have main : ∀ axes : List (String × List JsonVal),
      (axes.map Prod.fst).Nodup →
      expandMatrix (axes.map (fun p => (p.1, JsonVal.arr p.2))) =
        specCartesianProduct axes := by
    intro axes hnd
    unfold expandMatrix
    have hkeys : (axes.map (fun p => (p.1, JsonVal.arr p.2))).map (·.1) =
        axes.map Prod.fst := by
      simp [List.map_map, Function.comp]
    rw [hkeys]
    rw [generateCombinations_cartesian _ axes []
      (aGet_axes_map axes hnd) (fun p _ => rfl) hnd]
    simp
  refine ⟨fun axes hnd => ⟨main axes hnd, ?_⟩, fun entries => ?_, rfl⟩
  · rw [main axes hnd, specCartesianProduct_length]
  · calc expandMatrix [("include", JsonVal.arr entries)]
        = entries.flatMap (fun value => [[("include", value)]]) := rfl
      _ = entries.map (fun e => [("include", e)]) := flatMapSingle entries _

/-- C5 witness: the two-axis example, axis keys distinct, expanded through
the code equals the reference cartesian product. -/
theorem c5_witness :
    (([("os", [JsonVal.str "a", JsonVal.str "b"]),
        ("ver", [JsonVal.num 1, JsonVal.num 2])].map Prod.fst).Nodup) ∧
    expandMatrix ([("os", [JsonVal.str "a", JsonVal.str "b"]),
        ("ver", [JsonVal.num 1, JsonVal.num 2])].map
        (fun p => (p.1, JsonVal.arr p.2))) =
      specCartesianProduct [("os", [JsonVal.str "a", JsonVal.str "b"]),
        ("ver", [JsonVal.num 1, JsonVal.num 2])] :=
  ⟨by decide, (c5_matrix_expansion.1 [("os", [JsonVal.str "a",
      JsonVal.str "b"]), ("ver", [JsonVal.num 1, JsonVal.num 2])]
    (by decide)).1⟩

/-! Ghost-trace facts: nothing below the scheduler's per-job dispatch adds
start events, so the trace records exactly the instance starts. -/

theorem resolveStepDir_trace (O : SchedOracle) (wf : Workflow)
    (jobName stepId : String) (matrixValue : Option (AMap JsonVal))
    (wfW jobW : Option String) (workingDir : String) (step : Step)
    (st : RunState) :
    (resolveStepDir O wf jobName stepId matrixValue wfW jobW workingDir
      step st).2.startTrace = st.startTrace := by
  unfold resolveStepDir
  split
  · rfl
  · split
    · rfl
    · split
      · rfl
      · rfl

theorem recordExecOutputs_trace (ex : ExecResult) (jobName stepId : String)
    (st : RunState) :
    (recordExecOutputs ex jobName stepId st).startTrace = st.startTrace := by
  unfold recordExecOutputs
  dsimp only
  split
  · rfl
  · rfl

theorem runStepOne_trace (O : SchedOracle) (wf : Workflow) (isDryRun : Bool)
    (workingDir : String) (wfW jobW : Option String) (jobName : String)
    (matrixValue : Option (AMap JsonVal)) (step : Step) (stepId : String)
    (st : RunState) :
    (runStepOne O wf isDryRun workingDir wfW jobW jobName matrixValue step
      stepId st).st.startTrace = st.startTrace := by
  unfold runStepOne
  dsimp only
  repeat' split
  all_goals simp [resolveStepDir_trace, recordExecOutputs_trace, askConfirm]

theorem runStepsLoop_trace (O : SchedOracle) (wf : Workflow)
    (isDryRun : Bool) (workingDir : String) (wfW jobW : Option String)
    (jobName : String) (matrixValue : Option (AMap JsonVal)) :
    ∀ (steps : List Step) (i : Nat) (jr : JobResult) (st : RunState),
      (runStepsLoop O wf isDryRun workingDir wfW jobW jobName matrixValue
        steps i jr st).2.2.2.startTrace = st.startTrace := by
  intro steps
  induction steps with
  | nil => intro i jr st; rfl
  | cons step rest ih =>
    intro i jr st
    unfold runStepsLoop
    dsimp only
    repeat' split
    all_goals simp [ih, runStepOne_trace]

set_option maxHeartbeats 1000000 in
theorem runJobInstance_trace (O : SchedOracle) (wf : Workflow)
    (isDryRun : Bool) (workingDir : String) (wfW : Option String)
    (jobName : String) (job : Job) (matrixValue : Option (AMap JsonVal))
    (st : RunState) :
    (runJobInstance O wf isDryRun workingDir wfW jobName job matrixValue
      st).2.startTrace = st.startTrace := by
  unfold runJobInstance
  dsimp only
  repeat' split
  all_goals simp [runStepsLoop_trace, pushResult, askConfirm]

theorem runMatrixInstances_trace (O : SchedOracle) (wf : Workflow)
    (isDryRun : Bool) (workingDir : String) (wfW : Option String)
    (jobName : String) (job : Job) (completed : List String) :
    ∀ (combos : List (AMap JsonVal)) (anyRun : Bool) (st : RunState),
      ∃ evs, (runMatrixInstances O wf isDryRun workingDir wfW jobName job
          completed combos anyRun st).2.2.startTrace =
        st.startTrace ++ evs ∧ ∀ ev ∈ evs, ev = (jobName, completed) := by
  intro combos
  induction combos with
  | nil =>
    intro anyRun st
    exact ⟨[], by simp [runMatrixInstances], by simp⟩
  | cons combo rest ih =>
    intro anyRun st
    unfold runMatrixInstances
    dsimp only
    split
    · refine ⟨[(jobName, completed)], ?_, by simp⟩
      rw [runJobInstance_trace]
      simp [recordStart]
    · obtain ⟨evs, hevs, hall⟩ := ih true (runJobInstance O wf isDryRun
        workingDir wfW jobName job (some combo)
        (recordStart st jobName completed)).2
      refine ⟨(jobName, completed) :: evs, ?_, ?_⟩
      · rw [hevs, runJobInstance_trace]
        simp [recordStart]
      · intro ev hev
        rcases List.mem_cons.mp hev with rfl | h
        · rfl
        · exact hall ev h

theorem runPass_completed_extends (O : SchedOracle) (wf : Workflow)
    (isDryRun : Bool) (workingDir : String) (wfW : Option String) :
    ∀ (names completed : List String) (anyRun : Bool) (st : RunState),
      ∃ ext, (runPass O wf isDryRun workingDir wfW names completed anyRun
        st).completed = completed ++ ext := by
  intro names
  induction names with
  | nil => intro completed anyRun st; exact ⟨[], by simp [runPass]⟩
  | cons jobName rest ih =>
    intro completed anyRun st
    unfold runPass
    split
    · exact ih completed anyRun st
    · split
      · exact ih completed anyRun st
      · split
        · exact ih completed anyRun st
        · split
          · dsimp only
            split
            · refine ⟨[], ?_⟩
              simp
            · obtain ⟨ext, hext⟩ := ih (completed ++ [jobName]) _ _
              refine ⟨jobName :: ext, ?_⟩
              rw [hext]
              simp
          · dsimp only
            split
            · refine ⟨[], ?_⟩
              simp
            · obtain ⟨ext, hext⟩ := ih (completed ++ [jobName]) _ _
              refine ⟨jobName :: ext, ?_⟩
              rw [hext]
              simp

theorem runPass_trace_deps (O : SchedOracle) (wf : Workflow)
    (isDryRun : Bool) (workingDir : String) (wfW : Option String) :
    ∀ (names completed : List String) (anyRun : Bool) (st : RunState),
      ∃ evs, (runPass O wf isDryRun workingDir wfW names completed anyRun
          st).st.startTrace = st.startTrace ++ evs ∧
        ∀ ev ∈ evs, ∃ job, aGet wf.jobs ev.1 = some job ∧
          areDependenciesMet job ev.2 = true := by
  intro names
  induction names with
  | nil =>
    intro completed anyRun st
    exact ⟨[], by simp [runPass], by simp⟩
  | cons jobName rest ih =>
    intro completed anyRun st
    unfold runPass
    split
    · exact ih completed anyRun st
    · split
      · exact ih completed anyRun st
      · split
        · exact ih completed anyRun st
        · rename_i x1 job hj hdep
          have hdep' : areDependenciesMet job completed = true := by
            simpa using hdep
          split
          · dsimp only
            split
            · obtain ⟨evs, he, ha⟩ := runMatrixInstances_trace O wf isDryRun
                workingDir wfW jobName job completed _ anyRun _
              refine ⟨evs, by simpa using he, ?_⟩
              intro ev hev
              rw [ha ev hev]
              exact ⟨job, hj, hdep'⟩
            · obtain ⟨evs1, he1, ha1⟩ := runMatrixInstances_trace O wf
                isDryRun workingDir wfW jobName job completed _ anyRun _
              obtain ⟨evs2, he2, hp2⟩ := ih (completed ++ [jobName]) _ _
              refine ⟨evs1 ++ evs2, ?_, ?_⟩
              · rw [he2, he1]
                simp
              · intro ev hev
                rcases List.mem_append.mp hev with h | h
                · rw [ha1 ev h]
                  exact ⟨job, hj, hdep'⟩
                · exact hp2 ev h
          · dsimp only
            split
            · refine ⟨[(jobName, completed)], ?_, ?_⟩
              · rw [runJobInstance_trace]
                simp [recordStart]
              · intro ev hev
                rcases List.mem_singleton.mp hev with rfl
                exact ⟨job, hj, hdep'⟩
            · obtain ⟨evs2, he2, hp2⟩ := ih (completed ++ [jobName]) _ _
              refine ⟨(jobName, completed) :: evs2, ?_, ?_⟩
              · rw [he2, runJobInstance_trace]
                simp [recordStart]
              · intro ev hev
                rcases List.mem_cons.mp hev with rfl | h
                · exact ⟨job, hj, hdep'⟩
                · exact hp2 ev h

theorem runPass_trace_completed (O : SchedOracle) (wf : Workflow)
    (isDryRun : Bool) (workingDir : String) (wfW : Option String) :
    ∀ (names completed : List String) (anyRun : Bool) (st : RunState),
      (runPass O wf isDryRun workingDir wfW names completed anyRun
        st).thrown = none →
      ∀ ev ∈ (runPass O wf isDryRun workingDir wfW names completed anyRun
        st).st.startTrace,
        ev ∈ st.startTrace ∨
          ev.1 ∈ (runPass O wf isDryRun workingDir wfW names completed
            anyRun st).completed := by
  intro names
  induction names with
  | nil =>
    intro completed anyRun st _ ev hev
    simp only [runPass] at hev ⊢
    exact Or.inl hev
  | cons jobName rest ih =>
    intro completed anyRun st
    unfold runPass
    split
    · exact ih completed anyRun st
    · split
      · exact ih completed anyRun st
      · split
        · exact ih completed anyRun st
        · rename_i x1 job hj hdep
          split
          · dsimp only
            split
            · intro hth
              simp at hth
            · intro hth ev hev
              rcases ih (completed ++ [jobName]) _ _ hth ev hev with h | h
              · obtain ⟨evs1, he1, ha1⟩ := runMatrixInstances_trace O wf
                  isDryRun workingDir wfW jobName job completed _ anyRun _
                rw [he1] at h
                dsimp only at h
                rcases List.mem_append.mp h with h | h
                · exact Or.inl h
                · right
                  obtain ⟨ext, hext⟩ := runPass_completed_extends O wf
                    isDryRun workingDir wfW rest (completed ++ [jobName]) _ _
                  rw [hext, ha1 ev h]
                  simp
              · exact Or.inr h
          · dsimp only
            split
            · intro hth
              simp at hth
            · intro hth ev hev
              rcases ih (completed ++ [jobName]) _ _ hth ev hev with h | h
              · rw [runJobInstance_trace] at h
                simp only [recordStart] at h
                rcases List.mem_append.mp h with h | h
                · exact Or.inl h
                · right
                  obtain ⟨ext, hext⟩ := runPass_completed_extends O wf
                    isDryRun workingDir wfW rest (completed ++ [jobName]) _ _
                  rw [hext, List.mem_singleton.mp h]
                  simp
              · exact Or.inr h

theorem runLoop_completed_extends (O : SchedOracle) (wf : Workflow)
    (isDryRun : Bool) (workingDir : String) (wfW : Option String)
    (names : List String) :
    ∀ (k : Nat) (completed : List String) (st : RunState),
      names.length - completed.length ≤ k →
      ∃ ext, (runLoop O wf isDryRun workingDir wfW names completed
        st).completed = completed ++ ext := by
  intro k
  induction k with
  | zero =>
    intro completed st hk
    rw [runLoop]
    have hlt : ¬ completed.length < names.length := by omega
    simp only [hlt, if_false]
    exact ⟨[], by simp⟩
  | succ k ih =>
    intro completed st hk
    rw [runLoop]
    by_cases hlt : completed.length < names.length
    · simp only [hlt, if_true]
      split
      · split
        · rename_i hth hrun
          have hprog := runPass_progress O wf isDryRun workingDir wfW names
            completed false st hth hrun
          simp only [Bool.false_eq_true, false_or] at hprog
          obtain ⟨ext1, hext1⟩ := runPass_completed_extends O wf isDryRun
            workingDir wfW names completed false st
          obtain ⟨ext2, hext2⟩ := ih (runPass O wf isDryRun workingDir wfW
            names completed false st).completed
            (runPass O wf isDryRun workingDir wfW names completed false
              st).st (by omega)
          refine ⟨ext1 ++ ext2, ?_⟩
          rw [hext2, hext1, List.append_assoc]
        · obtain ⟨ext, hext⟩ := runPass_completed_extends O wf isDryRun
            workingDir wfW names completed false st
          exact ⟨ext, hext⟩
      · obtain ⟨ext, hext⟩ := runPass_completed_extends O wf isDryRun
          workingDir wfW names completed false st
        exact ⟨ext, hext⟩
    · simp only [hlt, if_false]
      exact ⟨[], by simp⟩

theorem runLoop_trace_deps (O : SchedOracle) (wf : Workflow)
    (isDryRun : Bool) (workingDir : String) (wfW : Option String)
    (names : List String) :
    ∀ (k : Nat) (completed : List String) (st : RunState),
      names.length - completed.length ≤ k →
      ∃ evs, (runLoop O wf isDryRun workingDir wfW names completed
          st).st.startTrace = st.startTrace ++ evs ∧
        ∀ ev ∈ evs, ∃ job, aGet wf.jobs ev.1 = some job ∧
          areDependenciesMet job ev.2 = true := by
  intro k
  induction k with
  | zero =>
    intro completed st hk
    rw [runLoop]
    have hlt : ¬ completed.length < names.length := by omega
    simp only [hlt, if_false]
    exact ⟨[], by simp, by simp⟩
  | succ k ih =>
    intro completed st hk
    rw [runLoop]
    by_cases hlt : completed.length < names.length
    · simp only [hlt, if_true]
      split
      · split
        · rename_i hth hrun
          have hprog := runPass_progress O wf isDryRun workingDir wfW names
            completed false st hth hrun
          simp only [Bool.false_eq_true, false_or] at hprog
          obtain ⟨evs1, he1, ha1⟩ := runPass_trace_deps O wf isDryRun
            workingDir wfW names completed false st
          obtain ⟨evs2, he2, ha2⟩ := ih (runPass O wf isDryRun workingDir
            wfW names completed false st).completed
            (runPass O wf isDryRun workingDir wfW names completed false
              st).st (by omega)
          refine ⟨evs1 ++ evs2, ?_, ?_⟩
          · rw [he2, he1, List.append_assoc]
          · intro ev hev
            rcases List.mem_append.mp hev with h | h
            · exact ha1 ev h
            · exact ha2 ev h
        · obtain ⟨evs, he, ha⟩ := runPass_trace_deps O wf isDryRun
            workingDir wfW names completed false st
          exact ⟨evs, he, ha⟩
      · obtain ⟨evs, he, ha⟩ := runPass_trace_deps O wf isDryRun workingDir
          wfW names completed false st
        exact ⟨evs, he, ha⟩
    · simp only [hlt, if_false]
      exact ⟨[], by simp, by simp⟩

theorem runLoop_trace_completed (O : SchedOracle) (wf : Workflow)
    (isDryRun : Bool) (workingDir : String) (wfW : Option String)
    (names : List String) :
    ∀ (k : Nat) (completed : List String) (st : RunState),
      names.length - completed.length ≤ k →
      (runLoop O wf isDryRun workingDir wfW names completed st).thrown =
        none →
      ∀ ev ∈ (runLoop O wf isDryRun workingDir wfW names completed
        st).st.startTrace,
        ev ∈ st.startTrace ∨
          ev.1 ∈ (runLoop O wf isDryRun workingDir wfW names completed
            st).completed := by
  intro k
  induction k with
  | zero =>
    intro completed st hk
    rw [runLoop]
    have hlt : ¬ completed.length < names.length := by omega
    simp only [hlt, if_false]
    intro _ ev hev
    exact Or.inl hev
  | succ k ih =>
    intro completed st hk
    rw [runLoop]
    by_cases hlt : completed.length < names.length
    · simp only [hlt, if_true]
      split
      · split
        · rename_i hth hrun
          have hprog := runPass_progress O wf isDryRun workingDir wfW names
            completed false st hth hrun
          simp only [Bool.false_eq_true, false_or] at hprog
          intro hthrown ev hev
          rcases ih (runPass O wf isDryRun workingDir wfW names completed
              false st).completed
            (runPass O wf isDryRun workingDir wfW names completed false
              st).st (by omega) hthrown ev hev with h | h
          · rcases runPass_trace_completed O wf isDryRun workingDir wfW
              names completed false st hth ev h with h2 | h2
            · exact Or.inl h2
            · right
              obtain ⟨ext, hext⟩ := runLoop_completed_extends O wf isDryRun
                workingDir wfW names k
                (runPass O wf isDryRun workingDir wfW names completed false
                  st).completed
                (runPass O wf isDryRun workingDir wfW names completed false
                  st).st (by omega)
              rw [hext]
              exact List.mem_append_left _ h2
          · exact Or.inr h
        · rename_i hth hrun
          intro _ ev hev
          exact runPass_trace_completed O wf isDryRun workingDir wfW names
            completed false st hth ev hev
      · intro hthrown
        rename_i hth
        exact absurd hthrown hth
    · simp only [hlt, if_false]
      intro _ ev hev
      exact Or.inl hev

theorem runLoop_cover (O : SchedOracle) (wf : Workflow) (isDryRun : Bool)
    (workingDir : String) (wfW : Option String) (names : List String) :
    ∀ (k : Nat) (completed : List String) (st : RunState),
      names.length - completed.length ≤ k →
      (runLoop O wf isDryRun workingDir wfW names completed st).thrown =
        none →
      (runLoop O wf isDryRun workingDir wfW names completed st).stuck =
        none →
      names.length ≤ (runLoop O wf isDryRun workingDir wfW names completed
        st).completed.length := by
  intro k
  induction k with
  | zero =>
    intro completed st hk
    rw [runLoop]
    have hlt : ¬ completed.length < names.length := by omega
    simp only [hlt, if_false]
    intro _ _
    omega
  | succ k ih =>
    intro completed st hk
    rw [runLoop]
    by_cases hlt : completed.length < names.length
    · simp only [hlt, if_true]
      split
      · split
        · rename_i hth hrun
          have hprog := runPass_progress O wf isDryRun workingDir wfW names
            completed false st hth hrun
          simp only [Bool.false_eq_true, false_or] at hprog
          exact ih (runPass O wf isDryRun workingDir wfW names completed
              false st).completed
            (runPass O wf isDryRun workingDir wfW names completed false
              st).st (by omega)
        · intro _ hstuck
          simp at hstuck
      · intro hthrown hstuck2
        rename_i hth
        exact absurd hthrown hth
    · simp only [hlt, if_false]
      intro _ _
      omega

/-- C1: dependency ordering.  Every instance start the scheduler records
carries the completed set at that moment, and (first part) the started
job exists and had its dependencies met against that set — so a job
needing `A` (one name or in a list, second part) never starts before `A`
is in the completed set; and in a run that finishes without a thrown
error, every started job ends in the completed set, whatever its
status — so a dependent is unblocked in a later pass regardless of how
its prerequisite ended. -/
theorem c1_dependency_ordering (O : SchedOracle) (wf : Workflow)
    (isDryRun : Bool) (workingDir : String) (st0 : RunState)
    (h0 : st0.startTrace = []) :
    (∀ ev ∈ (runWorkflow O wf isDryRun workingDir st0).st.startTrace,
      (∃ job, aGet wf.jobs ev.1 = some job ∧
        areDependenciesMet job ev.2 = true) ∧
      ((runWorkflow O wf isDryRun workingDir st0).thrown = none →
        ev.1 ∈ (runWorkflow O wf isDryRun workingDir st0).completed)) ∧
    (∀ (A B : String) (jobB : Job), aGet wf.jobs B = some jobB →
      ((jobB.needs = some (.one A) ∧ A ≠ "") ∨
        (∃ ds, jobB.needs = some (.many ds) ∧ A ∈ ds)) →
      ∀ ev ∈ (runWorkflow O wf isDryRun workingDir st0).st.startTrace,
        ev.1 = B → ev.2.contains A = true) := by
  have hloopP : ∀ (wfW : Option String) (st1 : RunState),
      st1.startTrace = [] →
      ∀ ev ∈ (runLoop O wf isDryRun workingDir wfW (wf.jobs.map (·.1)) []
        st1).st.startTrace,
      (∃ job, aGet wf.jobs ev.1 = some job ∧
        areDependenciesMet job ev.2 = true) ∧
      ((runLoop O wf isDryRun workingDir wfW (wf.jobs.map (·.1)) []
          st1).thrown = none →
        ev.1 ∈ (runLoop O wf isDryRun workingDir wfW (wf.jobs.map (·.1))
          [] st1).completed) := by
    intro wfW st1 h1 ev hev
    constructor
    · obtain ⟨evs, he, ha⟩ := runLoop_trace_deps O wf isDryRun workingDir
        wfW (wf.jobs.map (·.1)) (wf.jobs.map (·.1)).length [] st1
        (by omega)
      rw [he, h1] at hev
      simp only [List.nil_append] at hev
      exact ha ev hev
    · intro hth
      rcases runLoop_trace_completed O wf isDryRun workingDir wfW
        (wf.jobs.map (·.1)) (wf.jobs.map (·.1)).length [] st1 (by omega)
        hth ev hev with h | h
      · rw [h1] at h
        simp at h
      · exact h
  have hmain : ∀ ev ∈ (runWorkflow O wf isDryRun workingDir
      st0).st.startTrace,
      (∃ job, aGet wf.jobs ev.1 = some job ∧
        areDependenciesMet job ev.2 = true) ∧
      ((runWorkflow O wf isDryRun workingDir st0).thrown = none →
        ev.1 ∈ (runWorkflow O wf isDryRun workingDir st0).completed) := by
    unfold runWorkflow
    dsimp only
    split
    · intro ev hev
      exfalso
      revert hev
      split <;> simp [h0]
    · split
      · intro ev hev
        exact hloopP _ _ (by simp [h0]) ev hev
      · intro ev hev
        exact hloopP _ _ h0 ev hev
  refine ⟨hmain, ?_⟩
  intro A B jobB hB hform ev hev hevB
  obtain ⟨⟨job, hj, hdeps⟩, _⟩ := hmain ev hev
  rw [hevB, hB] at hj
  obtain rfl : jobB = job := Option.some.inj hj
  rcases hform with ⟨hone, hA⟩ | ⟨ds, hmany, hmem⟩
  · simp [areDependenciesMet, hone, hA] at hdeps
    simpa using hdeps
  · simp [areDependenciesMet, hmany, List.all_eq_true] at hdeps
    have := hdeps A hmem
    simpa using this

/-- C7: the scheduling loop terminates for every finite job set.  A pass
that completed no job while jobs remain ends the loop normally — no
exception — warning with exactly the remaining job names and keeping the
completed jobs' results; a pass that did run a job strictly grows the
completed set (so passes cannot repeat forever); and a loop that ends
with neither a thrown error nor a deadlock warning has completed all the
declared jobs. -/
theorem c7_loop_termination :
    (∀ (O : SchedOracle) (wf : Workflow) (isDryRun : Bool)
      (workingDir : String) (wfW : Option String)
      (names completed : List String) (st : RunState),
      (runPass O wf isDryRun workingDir wfW names completed false
        st).thrown = none →
      (runPass O wf isDryRun workingDir wfW names completed false
        st).anyJobRun = true →
      completed.length + 1 ≤
        (runPass O wf isDryRun workingDir wfW names completed false
          st).completed.length) ∧
    (∀ (O : SchedOracle) (wf : Workflow) (isDryRun : Bool)
      (workingDir : String) (wfW : Option String)
      (names completed : List String) (st : RunState),
      completed.length < names.length →
      (runPass O wf isDryRun workingDir wfW names completed false
        st).thrown = none →
      (runPass O wf isDryRun workingDir wfW names completed false
        st).anyJobRun = false →
      runLoop O wf isDryRun workingDir wfW names completed st =
        ⟨none,
         some (names.filter (fun n =>
           ¬ (runPass O wf isDryRun workingDir wfW names completed false
             st).completed.contains n)),
         (runPass O wf isDryRun workingDir wfW names completed false
           st).completed,
         (runPass O wf isDryRun workingDir wfW names completed false
           st).st⟩) ∧
    (∀ (O : SchedOracle) (wf : Workflow) (isDryRun : Bool)
      (workingDir : String) (wfW : Option String)
      (names completed : List String) (st : RunState),
      (runLoop O wf isDryRun workingDir wfW names completed st).thrown =
        none →
      (runLoop O wf isDryRun workingDir wfW names completed st).stuck =
        none →
      names.length ≤ (runLoop O wf isDryRun workingDir wfW names completed
        st).completed.length) := by
  refine ⟨?_, ?_, ?_⟩
  · intro O wf isDryRun workingDir wfW names completed st hth hrun
    have := runPass_progress O wf isDryRun workingDir wfW names completed
      false st hth hrun
    simpa using this
  · intro O wf isDryRun workingDir wfW names completed st hlt hth hrun
    rw [runLoop]
    simp [hlt, hth, hrun]
  · intro O wf isDryRun workingDir wfW names completed st hth hstuck
    exact runLoop_cover O wf isDryRun workingDir wfW names names.length
      completed st (by omega) hth hstuck

/-- C7 witness: a two-job dependency cycle.  The first pass runs nothing;
the loop exits normally, naming both jobs as stuck, with no exception and
the state untouched. -/
theorem c7_witness :
    (([] : List String).length < (["A", "B"] : List String).length ∧
      (runPass (mkConfirms []) wfCycle false "/r" none ["A", "B"] [] false
        initialRunState).thrown = none ∧
      (runPass (mkConfirms []) wfCycle false "/r" none ["A", "B"] [] false
        initialRunState).anyJobRun = false) ∧
    runLoop (mkConfirms []) wfCycle false "/r" none ["A", "B"] []
      initialRunState = ⟨none, some ["A", "B"], [], initialRunState⟩ :=
  ⟨⟨by decide, by decide, by decide⟩,
   (c7_loop_termination.2.1 (mkConfirms []) wfCycle false "/r" none
      ["A", "B"] [] initialRunState (by decide) (by decide)
      (by decide)).trans (by decide)⟩

/-- C2 (counterexample): `wfTwo` with confirmation answers
`[yes, quit, yes]` — the user quits at `j1`'s command confirmation.  The
run does not abort: no error is thrown, `j1` is still marked completed
(skipped), and `j2` — whose turn only comes afterwards — starts and
succeeds, consuming a third confirmation. -/
theorem c2_counterexample :
    runWorkflow (mkConfirms [.yes, .quit, .yes]) wfTwo false "/repo"
      initialRunState = ⟨none, none, ["j1", "j2"], quitRunEndState⟩ := by
  have h1 : runPass (mkConfirms [.yes, .quit, .yes]) wfTwo false "/repo"
      none ["j1", "j2"] [] false initialRunState =
      ⟨none, ["j1", "j2"], true, quitRunEndState⟩ := by decide
  have h2 : runLoop (mkConfirms [.yes, .quit, .yes]) wfTwo false "/repo"
      none ["j1", "j2"] [] initialRunState =
      (⟨none, none, ["j1", "j2"], quitRunEndState⟩ : LoopResult) := by
    rw [runLoop]
    simp only [h1]
    rw [runLoop]
    simp
  have hw : wfTwo.defaultsRunWorkingDirectory = none := rfl
  have hj : (wfTwo.jobs.map (fun x => x.1)) = ["j1", "j2"] := rfl
  simp only [runWorkflow, hw, hj]
  simp [h2]

/-- C2 (amended): only the job-level confirmation quit aborts the run —
it throws `Workflow execution stopped by user`, which the pass and the
loop propagate to the caller unchanged.  A quit at the command-level
confirmation or at the continue-after-failure confirmation never raises:
no outcome of a run-command step carries a thrown error; such a quit only
ends the current job early (its remaining steps are skipped), the job is
still marked completed, and later jobs still run (see the
counterexample). -/
theorem c2_user_quit_semantics :
    (∀ (O : SchedOracle) (wf : Workflow) (isDryRun : Bool)
      (workingDir : String) (wfW : Option String) (jobName : String)
      (job : Job) (matrixValue : Option (AMap JsonVal)) (st : RunState),
      st.runAllJobsMode = false →
      O.confirm st.confirmCount = .quit →
      (runJobInstance O wf isDryRun workingDir wfW jobName job matrixValue
        st).1 = some "Workflow execution stopped by user") ∧
    (∀ (O : SchedOracle) (wf : Workflow) (isDryRun : Bool)
      (workingDir : String) (wfW jobW : Option String) (jobName : String)
      (matrixValue : Option (AMap JsonVal)) (step : Step) (stepId : String)
      (st : RunState) (cmd : String),
      step.run = some cmd →
      (runStepOne O wf isDryRun workingDir wfW jobW jobName matrixValue
        step stepId st).thrown = none) ∧
    (∀ (O : SchedOracle) (wf : Workflow) (isDryRun : Bool)
      (workingDir : String) (wfW : Option String)
      (names completed : List String) (st : RunState) (msg : String),
      completed.length < names.length →
      (runPass O wf isDryRun workingDir wfW names completed false
        st).thrown = some msg →
      runLoop O wf isDryRun workingDir wfW names completed st =
        ⟨some msg, none,
         (runPass O wf isDryRun workingDir wfW names completed false
           st).completed,
         (runPass O wf isDryRun workingDir wfW names completed false
           st).st⟩) := by
  refine ⟨?_, ?_, ?_⟩
  · intro O wf isDryRun workingDir wfW jobName job matrixValue st hmode hq
    unfold runJobInstance
    dsimp only
    simp [hmode, askConfirm, hq]
  · intro O wf isDryRun workingDir wfW jobW jobName matrixValue step
      stepId st cmd hrun
    unfold runStepOne
    rw [hrun]
    dsimp only
    repeat' split
    all_goals rfl
  · intro O wf isDryRun workingDir wfW names completed st msg hlt hth
    rw [runLoop]
    simp [hlt, hth]

/-- C2 witness: a job-level quit as the very first confirmation makes the
job instance throw the user-stop error. -/
theorem c2_witness :
    (initialRunState.runAllJobsMode = false ∧
      (mkConfirms [.quit]).confirm initialRunState.confirmCount = .quit) ∧
    (runJobInstance (mkConfirms [.quit]) wfTwo false "/repo" none "j1" {}
      none initialRunState).1 = some "Workflow execution stopped by user" :=
  ⟨⟨rfl, by decide⟩,
   c2_user_quit_semantics.1 (mkConfirms [.quit]) wfTwo false "/repo" none
     "j1" {} none initialRunState rfl (by decide)⟩

/-- C1 witness: `B` needs `A` and is declared first; with all-yes answers
the run starts `A` with nothing completed and `B` only after `A` is
completed, so `B`'s start event carries `A` in its completed set. -/
theorem c1_witness :
    (initialRunState.startTrace = [] ∧
      aGet wfBA.jobs "B" = some { needs := some (Needs.one "A") } ∧
      ("B", ["A"]) ∈ (runWorkflow (mkConfirms []) wfBA false "/r"
        initialRunState).st.startTrace) ∧
    (["A"] : List String).contains "A" = true := by
  have hw : wfBA.defaultsRunWorkingDirectory = none := rfl
  have hj : (wfBA.jobs.map (fun x => x.1)) = ["B", "A"] := rfl
  have h1 : runPass (mkConfirms []) wfBA false "/r" none ["B", "A"] []
      false initialRunState = ⟨none, ["A"], true, midBAState⟩ := by decide
  have h2 : runPass (mkConfirms []) wfBA false "/r" none ["B", "A"] ["A"]
      false midBAState = ⟨none, ["A", "B"], true, baEndState⟩ := by decide
  have h3 : runLoop (mkConfirms []) wfBA false "/r" none ["B", "A"] []
      initialRunState = ⟨none, none, ["A", "B"], baEndState⟩ := by
    rw [runLoop]
    simp only [h1]
    rw [runLoop]
    simp only [h2]
    rw [runLoop]
    simp
  have hconc : runWorkflow (mkConfirms []) wfBA false "/r" initialRunState
      = ⟨none, none, ["A", "B"], baEndState⟩ := by
    simp only [runWorkflow, hw, hj]
    simp [h3]
  have hmem : ("B", ["A"]) ∈ (runWorkflow (mkConfirms []) wfBA false "/r"
      initialRunState).st.startTrace := by
    rw [hconc]
    decide
  refine ⟨⟨rfl, rfl, hmem⟩, ?_⟩
  exact (c1_dependency_ordering (mkConfirms []) wfBA false "/r"
    initialRunState rfl).2 "A" "B" { needs := some (Needs.one "A") } rfl
    (Or.inl ⟨rfl, by decide⟩) ("B", ["A"]) hmem rfl

end Lacky
